import Mathlib

/-!
# citizenfx/fx : resource resolver, registry merge and manifest interpreter

A shallow embedding of `src/cmd_resources.go` and `src/manifest.go`.

Modelling conventions
* A Go `string` is a list of Unicode code points (`GoString`); the strings the
  program handles are assumed to be valid UTF-8.
* A Go `error` value is `Option GoError` (`none` is `nil`).
* Everything outside the process (file system, git, the loaded manifest file)
  is read through the fields of a `World`; external calls are recorded, in
  program order, in a list of `Event`s.
* Go leaves the iteration order of `range` over a map unspecified; the order is
  supplied by the world (`World.rangeOrder`).
-/

set_option autoImplicit false

/-- A Go string, as its sequence of code points. -/
abbrev GoString := List Char

/-! ## Go standard library functions used by the program -/

/-- Go `unicode.IsSpace`: the Unicode White_Space property. -/
def unicode.IsSpace (c : Char) : Bool :=
  let n := c.toNat
  n == 0x09 || n == 0x0A || n == 0x0B || n == 0x0C || n == 0x0D || n == 0x20 ||
  n == 0x85 || n == 0xA0 || n == 0x1680 || (0x2000 ≤ n && n ≤ 0x200A) ||
  n == 0x2028 || n == 0x2029 || n == 0x202F || n == 0x205F || n == 0x3000

/-- Go `strings.TrimSpace`: all leading and trailing white space removed. -/
def strings.TrimSpace (s : GoString) : GoString :=
  ((s.dropWhile unicode.IsSpace).reverse.dropWhile unicode.IsSpace).reverse

/-- Go `strings.HasPrefix`. -/
def strings.HasPrefix (s pre : GoString) : Bool :=
  pre.isPrefixOf s

/-- Go `strings.Split` for a one-character separator (the only way the program
calls it): the substrings between the separators; a string without separator
gives the one-element list holding the string itself. -/
def strings.Split : GoString → Char → List GoString
  | [], _ => [[]]
  | c :: cs, sep =>
    if c = sep then [] :: strings.Split cs sep
    else
      match strings.Split cs sep with
      | [] => [[c]]
      | h :: t => (c :: h) :: t

/-- Go `strings.ToLower`: the string with every code point mapped to its lower
case. The Unicode case table is not part of the repository and is a parameter. -/
def strings.ToLower (lowerRune : Char → Char) (s : GoString) : GoString :=
  s.map lowerRune

/-- The part of `s` after the last occurrence of `sep` (all of `s` when `sep`
does not occur), scanning from the left with the candidate `cur`. -/
def afterLast (sep : Char) : GoString → GoString → GoString
  | [], cur => cur
  | c :: cs, cur => if c = sep then afterLast sep cs cs else afterLast sep cs cur

/-- Go `path.Split`: splits immediately after the final slash into directory
and file; without a slash the directory is empty. -/
def path.Split (p : GoString) : GoString × GoString :=
  let file := afterLast '/' p p
  (p.take (p.length - file.length), file)

/-- Go `filepath.Split` on a slash-separated (Unix) file system. -/
def filepath.Split (p : GoString) : GoString × GoString :=
  path.Split p

/-- The elements of a path, cleaned as Go `filepath.Clean` does: empty and `.`
elements are dropped, `..` removes the element before it, is dropped at the
root, and is kept at the start of a relative path. `acc` is the cleaned prefix,
last element first. -/
def filepath.cleanElems (rooted : Bool) : List GoString → List GoString → List GoString
  | [], acc => acc.reverse
  | e :: es, acc =>
    if e = [] ∨ e = ['.'] then filepath.cleanElems rooted es acc
    else if e = ['.', '.'] then
      match acc with
      | [] => if rooted then filepath.cleanElems rooted es [] else filepath.cleanElems rooted es [e]
      | a :: as =>
        if a = ['.', '.'] then filepath.cleanElems rooted es (e :: a :: as)
        else filepath.cleanElems rooted es as
    else filepath.cleanElems rooted es (e :: acc)

/-- Go `filepath.Clean` on a slash-separated file system. -/
def filepath.Clean (p : GoString) : GoString :=
  let rooted := strings.HasPrefix p ['/']
  let body := ['/'].intercalate (filepath.cleanElems rooted (strings.Split p '/') [])
  let out := if rooted then '/' :: body else body
  if out = [] then ['.'] else out

/-- Go `filepath.Join`: the non-empty elements joined by the separator, then
cleaned; the empty string when there is no non-empty element. -/
def filepath.Join (elems : List GoString) : GoString :=
  match elems.filter (fun e => e ≠ []) with
  | [] => []
  | es => filepath.Clean (['/'].intercalate es)

/-! ## Data model (`manifest.go`, `cmd_resources.go`) -/

/-- The `values map[string][]string` of a manifest, as an association list in
order of first insertion. -/
abbrev ManifestValues := List (GoString × List GoString)

/-- Go map index `values[key]`: the nil slice for an absent key. -/
def ManifestValues.get : ManifestValues → GoString → List GoString
  | [], _ => []
  | (k, vs) :: rest, key => if k = key then vs else ManifestValues.get rest key

/-- The statement `values[key] = append(values[key], value)`. -/
def ManifestValues.append : ManifestValues → GoString → GoString → ManifestValues
  | [], key, value => [(key, [value])]
  | (k, vs) :: rest, key, value =>
    if k = key then (k, vs ++ [value]) :: rest
    else (k, vs) :: ManifestValues.append rest key value

/-- A Manifest represents the manifest of a resource. -/
structure Manifest where
  values : ManifestValues
deriving DecidableEq, Repr

/-- Get gets a metadata string from the manifest. -/
def Manifest.Get (m : Manifest) (key : GoString) : GoString :=
  match m.values.get key with
  | [] => []
  | v :: _ => v

/-- GetAll gets all metadata strings from the manifest. -/
def Manifest.GetAll (m : Manifest) (key : GoString) : List GoString :=
  m.values.get key

/-- A Resource contains data related to a local resource. -/
structure Resource where
  Name : GoString
  Path : GoString
  Manifest : Manifest
deriving DecidableEq, Repr

/-- A Go error value that is not nil. -/
inductive GoError where
  /-- An error made by `errors.New` with the given message. -/
  | errorsNew (msg : String)
  /-- The value `os.ErrExist`. -/
  | osErrExist
  /-- The value `git.NoErrAlreadyUpToDate`. -/
  | gitNoErrAlreadyUpToDate
  /-- An error of the Lua interpreter (load or run time). -/
  | lua (msg : String)
  /-- Any other error reported by the operating system or by go-git. -/
  | external (code : Nat)
deriving DecidableEq, Repr


/-! ## The Lua side of `openManifest` (`manifest.go`, lines 30-75 and 92-101)

The manifest body is a Lua program. The embedding covers the declarative
fragment manifests are written in: a sequence of call statements whose callee
is a global name, a member of one (`a.b`), or the result of a call
(`field "x" "extra"`), and whose single argument is a literal or again such an
expression. The functions of `resourceInitCode` are translated one by one. -/

/-- A Lua value that is not a table or function. A number is kept as the text
`lua_tostring` gives for it. -/
inductive LuaScalar where
  | nil
  | boolean (b : Bool)
  | number (text : GoString)
  | string (s : GoString)
deriving DecidableEq, Repr

/-- The functions a manifest can get hold of. -/
inductive LuaFunction where
  /-- The Go function registered as global `AddMetaData` (lines 92-103). -/
  | AddMetaData
  /-- The closure `function(value) ... end` returned by `__index` for key `k`
  (lines 42-65). -/
  | field (k : GoString)
  /-- The closure `function(v2) ... end` returned by the closure for `k`
  (lines 60-64). -/
  | legacy (k : GoString)
  /-- A function of the Lua standard library. -/
  | library (name : GoString)
deriving DecidableEq, Repr

/-- A Lua value. -/
inductive LuaValue where
  | scalar (v : LuaScalar)
  /-- A table built by a table constructor `{ v1, v2, ... }`. -/
  | table (items : List LuaScalar)
  /-- A table of the standard library (`string`, `math`, `io`, ...). -/
  | libraryTable (name : GoString)
  | function (f : LuaFunction)
deriving DecidableEq, Repr

/-- The expressions of the manifest fragment. -/
inductive LuaExpr where
  /-- A literal: `nil`, `true`, `12`, `"text"`, `{ "a", "b" }`. -/
  | const (v : LuaValue)
  /-- The global variable `name`. -/
  | global (name : GoString)
  /-- The member access `e.name`. -/
  | index (e : LuaExpr) (name : GoString)
  /-- The call `f(arg)`, also written `f "text"` or `f { ... }`. -/
  | call (f : LuaExpr) (arg : LuaExpr)
deriving DecidableEq, Repr

/-- A loaded chunk: the statements of a manifest body, in order. -/
abbrev LuaChunk := List LuaExpr

/-- The Lua standard library as `lua.OpenLibraries` installs it. It is not part
of the repository; the embedding takes it as given. Library functions are taken
to return without changing the globals or the recorded metadata, and the
functions `rawget`, `type` and `ipairs` that `resourceInitCode` itself calls
are taken with their standard meaning. -/
structure LuaLibrary where
  /-- The value of a global name after `lua.OpenLibraries`. -/
  global : GoString → LuaValue
  /-- The member `name` of a library table or of a string. -/
  member : LuaValue → GoString → LuaValue
  /-- The result of calling a library function, or the error it raises. -/
  call : GoString → LuaValue → Except String LuaValue

/-- Lua `type(v)`. -/
def LuaValue.type : LuaValue → String
  | .scalar .nil => "nil"
  | .scalar (.boolean _) => "boolean"
  | .scalar (.number _) => "number"
  | .scalar (.string _) => "string"
  | .table _ => "table"
  | .libraryTable _ => "table"
  | .function _ => "function"

/-- Lua truth: everything but `nil` and `false`. -/
def LuaValue.truthy : LuaValue → Bool
  | .scalar .nil => false
  | .scalar (.boolean false) => false
  | _ => true

/-- go-lua `l.ToString(index)`: strings and numbers convert, nothing else. -/
def lua.ToString : LuaValue → Option GoString
  | .scalar (.string s) => some s
  | .scalar (.number text) => some text
  | _ => none

/-- The Go function behind `AddMetaData` (lines 92-101): when both arguments
convert to strings the value is appended to the list of the key. -/
def AddMetaData (values : ManifestValues) (key value : LuaValue) : ManifestValues :=
  match lua.ToString key, lua.ToString value with
  | some k, some v => values.append k v
  | _, _ => values

/-- Lua `ipairs` over a constructor table: the items up to the first `nil`. -/
def ipairs (items : List LuaScalar) : List LuaScalar :=
  items.takeWhile (fun v => v ≠ .nil)

/-- Lua `k:sub(-1) == 's'`. -/
def endsInS (k : GoString) : Bool :=
  k.getLast? = some 's'

/-- The closure `function(value) ... end` of lines 42-65, called for key `k`:
a table records each of its entries under `k` without a final `s` (a library
table has no entry for `ipairs` to visit), any other value is recorded under
`k`; the result is the legacy closure. -/
def fieldCall (k : GoString) (value : LuaValue) (values : ManifestValues) :
    LuaValue × ManifestValues :=
  let recorded :=
    match value with
    | .table items =>
      let newK := if endsInS k then k.dropLast else k
      (ipairs items).foldl
        (fun vs v => AddMetaData vs (.scalar (.string newK)) (.scalar v)) values
    | .libraryTable _ => values
    | _ => AddMetaData values (.scalar (.string k)) value
  (.function (.legacy k), recorded)

/-- The closure `function(v2) ... end` of lines 60-64: a string is recorded
under `k .. '_extra'`; nothing is returned. -/
def legacyCall (k : GoString) (v2 : LuaValue) (values : ManifestValues) :
    LuaValue × ManifestValues :=
  if v2.type = "string" then
    (.scalar .nil, AddMetaData values (.scalar (.string (k ++ "_extra".data))) v2)
  else (.scalar .nil, values)

/-- The `__index` function of lines 35-66, called with the globals table and a
key: the raw value when it is true, else the closure for the key. -/
def __index (t : GoString → LuaValue) (k : GoString) : LuaValue :=
  let raw := t k
  if raw.truthy then raw else .function (.field k)

/-- Reading global `k` while the metatable of `_G` is installed: the raw value
when there is one, else what `__index` returns. -/
def getGlobal (t : GoString → LuaValue) (k : GoString) : LuaValue :=
  if t k = .scalar .nil then __index t k else t k

/-- The member access `v.name`; indexing a value that is neither a table nor a
string is a run-time error. -/
def indexValue (lib : LuaLibrary) (v : LuaValue) (name : GoString) : Except String LuaValue :=
  match v with
  | .table _ => .ok (.scalar .nil)
  | .libraryTable _ => .ok (lib.member v name)
  | .scalar (.string _) => .ok (lib.member v name)
  | _ => .error ("attempt to index a " ++ v.type ++ " value")

/-- The call `f(arg)`; calling a value that is not a function is a run-time
error. -/
def callValue (lib : LuaLibrary) (f arg : LuaValue) (values : ManifestValues) :
    Except String (LuaValue × ManifestValues) :=
  match f with
  | .function (.field k) => .ok (fieldCall k arg values)
  | .function (.legacy k) => .ok (legacyCall k arg values)
  | .function .AddMetaData => .ok (.scalar .nil, AddMetaData values arg (.scalar .nil))
  | .function (.library name) =>
    match lib.call name arg with
    | .ok v => .ok (v, values)
    | .error msg => .error msg
  | _ => .error ("attempt to call a " ++ f.type ++ " value")

/-- Evaluation of an expression of the manifest body with globals `t` (the
metatable installed), threading the recorded metadata. -/
def LuaExpr.eval (lib : LuaLibrary) (t : GoString → LuaValue) :
    LuaExpr → ManifestValues → Except String (LuaValue × ManifestValues)
  | .const v, values => .ok (v, values)
  | .global name, values => .ok (getGlobal t name, values)
  | .index e name, values =>
    match e.eval lib t values with
    | .error msg => .error msg
    | .ok (v, values1) =>
      match indexValue lib v name with
      | .error msg => .error msg
      | .ok r => .ok (r, values1)
  | .call f arg, values =>
    match f.eval lib t values with
    | .error msg => .error msg
    | .ok (fv, values1) =>
      match arg.eval lib t values1 with
      | .error msg => .error msg
      | .ok (av, values2) => callValue lib fv av values2

/-- Running the statements of a chunk in order (`chunk()`, line 70); the first
error ends the run. -/
def runChunk (lib : LuaLibrary) (t : GoString → LuaValue) :
    LuaChunk → ManifestValues → Except String ManifestValues
  | [], values => .ok values
  | stmt :: rest, values =>
    match stmt.eval lib t values with
    | .error msg => .error msg
    | .ok (_, values1) => runChunk lib t rest values1

/-- The names `openManifest` unsets (line 81). -/
def unsafeLibraries : List GoString :=
  ["ffi".data, "require".data, "dofile".data, "load".data, "loadfile".data,
   "package".data, "os".data, "io".data]

/-- The globals the manifest body runs with: the standard library, the names
of line 81 set to nil (lines 83-86), and `AddMetaData` set (line 103). -/
def sandboxGlobals (lib : LuaLibrary) (name : GoString) : LuaValue :=
  if name = "AddMetaData".data then .function .AddMetaData
  else if name ∈ unsafeLibraries then .scalar .nil
  else lib.global name

/-! ## The world outside the process -/

/-- What `os.Stat` finds at a path. -/
inductive StatResult where
  /-- An error for which `os.IsNotExist` holds. -/
  | notExist
  | directory
  | file
  /-- Any other error. -/
  | error (err : GoError)
deriving DecidableEq, Repr

/-- One call of the function `filepath.Walk` is given: the path, whether it is
a directory, and the error the walk reports for it. -/
structure WalkEntry where
  path : GoString
  isDir : Bool
  err : Option GoError
deriving DecidableEq, Repr

/-- The state of a file as `ioutil.ReadFile` sees it. -/
inductive FileState where
  | missing
  | content (data : GoString)
  /-- Reading fails with an error other than non-existence. -/
  | unreadable (err : GoError)
deriving DecidableEq, Repr

/-- The files the registry step reads and writes, by name. -/
abbrev FileSystem := GoString → FileState

/-- The external collaborators of the resolver. Their answers are taken as
constant during one run. -/
structure World where
  /-- `os.Stat(name)`. -/
  osStat : GoString → StatResult
  /-- The error of `git.PlainClone(outRoot, false, URL)`. -/
  gitPlainClone : GoString → GoString → Option GoError
  /-- The error of `git.PlainOpen(outRoot)`. -/
  gitPlainOpen : GoString → Option GoError
  /-- The error of `repo.Worktree()`. -/
  gitWorktree : GoString → Option GoError
  /-- The result of `worktree.Status()`: whether the status is clean. -/
  gitStatus : GoString → Except GoError Bool
  /-- The error of `worktree.Pull`, called with the remote name `origin` and no
  other option. -/
  gitPull : GoString → Option GoError
  /-- The calls `filepath.Walk(root, fn)` makes while `fn` returns nil. -/
  walk : GoString → List WalkEntry
  /-- The result of `lua.LoadFile`: the parsed chunk, or the error for a
  missing or malformed file. -/
  luaLoadFile : GoString → Except GoError LuaChunk
  /-- The Lua standard library. -/
  luaLibrary : LuaLibrary
  /-- The Unicode lower-case mapping of `strings.ToLower`. -/
  lowerRune : Char → Char
  /-- The order in which `range` visits a map with the given keys (listed in
  order of insertion). -/
  rangeOrder : List GoString → List GoString
  /-- A `range` loop visits every key exactly once. -/
  rangeOrder_perm : ∀ keys, (rangeOrder keys).Perm keys

/-- An external call, as recorded in the trace of a run. -/
inductive Event where
  | osStat (name : GoString)
  | gitPlainClone (outRoot url : GoString)
  | gitPlainOpen (outRoot : GoString)
  | gitWorktree (outRoot : GoString)
  | gitStatus (outRoot : GoString)
  | gitPull (outRoot : GoString)
  | filepathWalk (root : GoString)
  | ioutilReadFile (file : GoString)
  | ioutilWriteFile (file data : GoString)
deriving DecidableEq, Repr

/-! ## `manifest.go` : `openManifest` -/

/-- The function `openManifest` (lines 29-125): the manifest file of the
directory is loaded and run in the sandbox with the metatable installed; a load
error or a run-time error is returned, else the recorded manifest. -/
def openManifest (w : World) (resourceRoot : GoString) : Except GoError Manifest :=
  let t := sandboxGlobals w.luaLibrary
  match w.luaLoadFile (filepath.Join [resourceRoot, "__resource.lua".data]) with
  | .error err => .error err
  | .ok chunk =>
    match runChunk w.luaLibrary t chunk [] with
    | .error msg => .error (.lua msg)
    | .ok values => .ok ⟨values⟩

/-! ## `cmd_resources.go` -/

/-- The callback of `gatherResources` (lines 28-48) over the entries of the
walk: a directory whose manifest opens is appended as a resource named after
its last path element; an entry with an error ends the walk. -/
def gatherResources.visit (w : World) : List WalkEntry → List Resource → List Resource
  | [], resourceList => resourceList
  | e :: rest, resourceList =>
    match e.err with
    | some _ => resourceList
    | none =>
      if e.isDir then
        match openManifest w e.path with
        | .ok manifest =>
          gatherResources.visit w rest
            (resourceList ++ [⟨(filepath.Split e.path).2, e.path, manifest⟩])
        | .error _ => gatherResources.visit w rest resourceList
      else gatherResources.visit w rest resourceList

/-- The function `gatherResources` (lines 25-51). -/
def gatherResources (w : World) (root : GoString) : List Resource :=
  gatherResources.visit w (w.walk root) []

/-- The function `dirExists` (lines 53-69). -/
def dirExists (w : World) (dirName : GoString) : Bool × Option GoError :=
  match w.osStat dirName with
  | .notExist => (false, none)
  | .error err => (false, some err)
  | .file => (false, some .osErrExist)
  | .directory => (true, none)

/-- The function `cloneRepo` (lines 71-83). -/
def cloneRepo (w : World) (repoURI outRoot : GoString) : List Event × Option GoError :=
  ([.gitPlainClone outRoot repoURI], w.gitPlainClone outRoot repoURI)

/-- The function `fetchRepo` (lines 85-125). -/
def fetchRepo (w : World) (outRoot : GoString) (force : Bool) : List Event × Option GoError :=
  match w.gitPlainOpen outRoot with
  | some err => ([.gitPlainOpen outRoot], some err)
  | none =>
    match w.gitWorktree outRoot with
    | some err => ([.gitPlainOpen outRoot, .gitWorktree outRoot], some err)
    | none =>
      match w.gitStatus outRoot with
      | .error err =>
        ([.gitPlainOpen outRoot, .gitWorktree outRoot, .gitStatus outRoot], some err)
      | .ok isClean =>
        if !isClean && !force then
          ([.gitPlainOpen outRoot, .gitWorktree outRoot, .gitStatus outRoot],
            some (.errorsNew "Git repository is dirty, can't update"))
        else
          let err := w.gitPull outRoot
          if err ≠ none ∧ err ≠ some .gitNoErrAlreadyUpToDate then
            ([.gitPlainOpen outRoot, .gitWorktree outRoot, .gitStatus outRoot,
              .gitPull outRoot], err)
          else
            ([.gitPlainOpen outRoot, .gitWorktree outRoot, .gitStatus outRoot,
              .gitPull outRoot], none)

/-- The package name of lines 130-134: the file part of the reference up to its
first dot. -/
def addPackage.packageName (packageURI : GoString) : GoString :=
  (strings.Split (path.Split packageURI).2 '.').headD []

/-- The local path of lines 136-138. -/
def addPackage.outRoot (w : World) (packageURI : GoString) : GoString :=
  let packageRoot := "[".data ++ strings.ToLower w.lowerRune (addPackage.packageName packageURI)
    ++ "]".data
  filepath.Join ["resources".data, packageRoot]

/-- The statement `dependencies[dep] = true` on the keys of the map. -/
def mapSet (keys : List GoString) (dep : GoString) : List GoString :=
  if dep ∈ keys then keys else keys ++ [dep]

/-- The keys of the map `dependencies` after the loop of lines 162-170. -/
def addPackage.dependencies (resourceList : List Resource) : List GoString :=
  resourceList.foldl
    (fun keys resource => (resource.Manifest.GetAll "dependency_url".data).foldl mapSet keys) []

/-- The result of a call of `addPackage`: the trace, and the error or the list. -/
abbrev AddPackageResult := List Event × Except GoError (List Resource)

/-- The loop of lines 173-181 over the dependencies in the order of the
`range`, with `resolve` the recursive call: the first error is returned, else
each returned list is put in front of `resourceList`. `none` when a recursive
call does not return. -/
def addPackage.fetchDependencies (resolve : GoString → Option AddPackageResult) :
    List GoString → List Event → List Resource → Option AddPackageResult
  | [], trace, resourceList => some (trace, .ok resourceList)
  | dep :: rest, trace, resourceList =>
    match resolve dep with
    | none => none
    | some (trace1, .error err) => some (trace ++ trace1, .error err)
    | some (trace1, .ok localList) =>
      addPackage.fetchDependencies resolve rest (trace ++ trace1) (localList ++ resourceList)

/-- The existence check and the fetch or clone of lines 140-156: the trace and
the error. -/
def addPackage.fetch (w : World) (repoURI outRoot : GoString) (force : Bool) :
    List Event × Option GoError :=
  match dirExists w outRoot with
  | (_, some err) => ([.osStat outRoot], some err)
  | (isDir, none) =>
    let fetched := if isDir then fetchRepo w outRoot force else cloneRepo w repoURI outRoot
    (.osStat outRoot :: fetched.1, fetched.2)

/-- The function `addPackage` (lines 127-184), with `fuel` bounding the depth
of the recursion: `none` when the bound is reached before the call returns. -/
def addPackage (w : World) : Nat → GoString → Bool → Option AddPackageResult
  | 0, _, _ => none
  | fuel + 1, packageURI, force =>
    let repoURI := packageURI
    let outRoot := addPackage.outRoot w packageURI
    let fetched := addPackage.fetch w repoURI outRoot force
    match fetched.2 with
    | some err => some (fetched.1, .error err)
    | none =>
      let resourceList := gatherResources w outRoot
      let dependencies := addPackage.dependencies resourceList
      addPackage.fetchDependencies (fun dep => addPackage w fuel dep force)
        (w.rangeOrder dependencies) (fetched.1 ++ [.filepathWalk outRoot]) resourceList

/-- The body of the loop of `parseResourceLines` (lines 205-213): a line that
starts with `start ` and has a second space-separated field adds that field,
trimmed. -/
def parseResourceLines.line (resources : List GoString) (line : GoString) : List GoString :=
  if strings.HasPrefix line "start ".data then
    let splitLine := strings.Split line ' '
    if splitLine.length ≥ 2 then resources ++ [strings.TrimSpace (splitLine.getD 1 [])]
    else resources
  else resources

/-- The lines 198-213 of `parseResourceLines` on the text of the file. -/
def parseResourceLines.parse (fileText : GoString) : List GoString :=
  (strings.Split fileText '\n').foldl parseResourceLines.line []

/-- The function `parseResourceLines` (lines 186-216): a missing file reads as
an empty one. -/
def parseResourceLines (fs : FileSystem) (file : GoString) : Except GoError (List GoString) :=
  match fs file with
  | .unreadable err => .error err
  | .missing => .ok (parseResourceLines.parse [])
  | .content fileData => .ok (parseResourceLines.parse fileData)

/-- The bytes `writeResourceLines` puts in its buffer (lines 222-229). -/
def writeResourceLines.buffer (lines : List GoString) : GoString :=
  "# THIS FILE IS AUTOMATICALLY-GENERATED\r\n".data ++
  "# DO NOT ADD ANYTHING OTHER THAN `start` LINES\r\n".data ++
  (lines.map (fun line => "start ".data ++ line ++ "\r\n".data)).flatten

/-- The function `writeResourceLines` (lines 218-234); the write is taken to
succeed and replaces the content of the file. -/
def writeResourceLines (fs : FileSystem) (file : GoString) (lines : List GoString) :
    Option GoError × FileSystem :=
  (none, fun name => if name = file then .content (writeResourceLines.buffer lines) else fs name)

/-- The loop of `addResources` (lines 245-259): a resource whose name equals no
line is appended. -/
def addResources.merge (resourceLines : List GoString) (resources : List Resource) :
    List GoString :=
  resources.foldl
    (fun resourceLines resource =>
      let found := resourceLines.any (fun line => line = resource.Name)
      if !found then resourceLines ++ [resource.Name] else resourceLines)
    resourceLines

/-- The function `addResources` (lines 236-264). -/
def addResources (resources : List Resource) (file : GoString) (fs : FileSystem) :
    List Event × Option GoError × FileSystem :=
  match parseResourceLines fs file with
  | .error err => ([.ioutilReadFile file], some err, fs)
  | .ok resourceLines =>
    let resourceLines := addResources.merge resourceLines resources
    let written := writeResourceLines fs file resourceLines
    ([.ioutilReadFile file, .ioutilWriteFile file (writeResourceLines.buffer resourceLines)],
      written.1, written.2)

/-- The values `cmdAdd` reads from its `cli.Context`. -/
structure Context where
  /-- `ctx.Args().First()`. -/
  first : GoString
  /-- `ctx.Bool("force")`. -/
  force : Bool
  /-- `ctx.String("config-file")`. -/
  configFile : GoString

/-- The function `cmdAdd` (lines 266-288); `none` when `addPackage` does not
return within `fuel`. -/
def cmdAdd (w : World) (fuel : Nat) (ctx : Context) (fs : FileSystem) :
    Option (List Event × Option GoError × FileSystem) :=
  let packageURI := ctx.first
  if (strings.TrimSpace packageURI).length = 0 then some ([], none, fs)
  else
    match addPackage w fuel packageURI ctx.force with
    | none => none
    | some (trace, .error err) => some (trace, some err, fs)
    | some (trace, .ok resources) =>
      let added := addResources resources ctx.configFile fs
      some (trace ++ added.1, added.2.1, added.2.2)

/-! ## Specification-side definitions and example data -/

/-- The names the registry merge is specified to append, for the names of the
new resources in order: each name that is not present, where present means
equal to an existing name or to a name appended earlier in the same merge. -/
def merge.appended (present : List GoString) : List GoString → List GoString
  | [] => []
  | name :: rest =>
    if name ∈ present then merge.appended present rest
    else name :: merge.appended (present ++ [name]) rest

/-- The last of the parts of a reference that its slashes separate. -/
def reference.lastSegment (ref : GoString) : GoString :=
  (strings.Split ref '/').getLastD []

/-- A path segment without its extensions: what stands before its first dot. -/
def reference.stripExtension (segment : GoString) : GoString :=
  segment.takeWhile (fun c => c ≠ '.')

/-- The package name of a reference as specified: the last path segment,
stripped of any extension, in lower case. -/
def reference.packageName (lowerRune : Char → Char) (ref : GoString) : GoString :=
  (reference.stripExtension (reference.lastSegment ref)).map lowerRune

/-- A Lua library in which the base functions and the libraries exist, the
unsafe ones included; its functions return nil. -/
def standardLibrary : LuaLibrary where
  global := fun name =>
    if name ∈ ["print".data, "type".data, "ipairs".data, "rawget".data, "setmetatable".data,
        "tostring".data, "require".data, "dofile".data, "load".data, "loadfile".data] then
      .function (.library name)
    else if name ∈ ["string".data, "table".data, "math".data, "package".data, "os".data,
        "io".data] then
      .libraryTable name
    else .scalar .nil
  member := fun v name =>
    match v with
    | .libraryTable lib => .function (.library (lib ++ '.' :: name))
    | _ => .scalar .nil
  call := fun _ _ => .ok (.scalar .nil)

/-- The world of the end-to-end scenario: nothing is present locally and every
clone succeeds; the repository `pack` holds the resources `foo` and `bar`, and
the manifest of `bar` declares the repository `dep`, which holds `baz`. -/
def packWorld : World where
  osStat := fun _ => .notExist
  gitPlainClone := fun _ _ => none
  gitPlainOpen := fun _ => none
  gitWorktree := fun _ => none
  gitStatus := fun _ => .ok true
  gitPull := fun _ => none
  walk := fun root =>
    if root = "resources/[pack]".data then
      [⟨"resources/[pack]".data, true, none⟩,
       ⟨"resources/[pack]/[a]".data, true, none⟩,
       ⟨"resources/[pack]/[a]/foo".data, true, none⟩,
       ⟨"resources/[pack]/[a]/foo/__resource.lua".data, false, none⟩,
       ⟨"resources/[pack]/[b]".data, true, none⟩,
       ⟨"resources/[pack]/[b]/bar".data, true, none⟩]
    else if root = "resources/[dep]".data then
      [⟨"resources/[dep]".data, true, none⟩,
       ⟨"resources/[dep]/baz".data, true, none⟩]
    else []
  luaLoadFile := fun file =>
    if file = "resources/[pack]/[a]/foo/__resource.lua".data then
      .ok [.call (.global "description".data) (.const (.scalar (.string "Foo".data)))]
    else if file = "resources/[pack]/[b]/bar/__resource.lua".data then
      .ok [.call (.global "dependency_url".data)
            (.const (.scalar (.string "https://example.test/dep.git".data)))]
    else if file = "resources/[dep]/baz/__resource.lua".data then
      .ok [.call (.global "client_scripts".data)
            (.const (.table [.string "a.lua".data, .string "b.lua".data]))]
    else .error (.external 2)
  luaLibrary := standardLibrary
  lowerRune := Char.toLower
  rangeOrder := fun keys => keys
  rangeOrder_perm := fun keys => List.Perm.refl keys

/-- A name the registry file can hold: it has no space and no line feed in it
and no white space at either end. -/
def registryName (name : GoString) : Prop :=
  ' ' ∉ name ∧ '\n' ∉ name ∧ strings.TrimSpace name = name

instance registryName.decidable (name : GoString) : Decidable (registryName name) := by
  unfold registryName
  infer_instance

/-- A resource whose directory name has a space in it. -/
def spacedResource : Resource :=
  ⟨"my res".data, "resources/[pack]/my res".data, ⟨[]⟩⟩

/-- A file system without any file. -/
def noFiles : FileSystem :=
  fun _ => .missing

/-- The key a list-valued declaration under `k` is specified to fill: `k`
without its final `s`, or `k` itself when it does not end in `s`. -/
def metadataKey.singular (k : GoString) : GoString :=
  if k.getLast? = some 's' then k.dropLast else k

/-- A world for single manifests: the directory `one` declares `field "x"`, the
directory `two` declares `fields { "a", "b" }`, the directory `evil` calls
`dofile "evil.lua"` and the directory `shell` calls `os.execute "id"`. -/
def manifestWorld : World where
  osStat := fun _ => .notExist
  gitPlainClone := fun _ _ => none
  gitPlainOpen := fun _ => none
  gitWorktree := fun _ => none
  gitStatus := fun _ => .ok true
  gitPull := fun _ => none
  walk := fun _ => []
  luaLoadFile := fun file =>
    if file = "one/__resource.lua".data then
      .ok [.call (.global "field".data) (.const (.scalar (.string "x".data)))]
    else if file = "two/__resource.lua".data then
      .ok [.call (.global "fields".data)
            (.const (.table [.string "a".data, .string "b".data]))]
    else if file = "evil/__resource.lua".data then
      .ok [.call (.global "dofile".data) (.const (.scalar (.string "evil.lua".data)))]
    else if file = "shell/__resource.lua".data then
      .ok [.call (.index (.global "os".data) "execute".data)
            (.const (.scalar (.string "id".data)))]
    else .error (.external 2)
  luaLibrary := standardLibrary
  lowerRune := Char.toLower
  rangeOrder := fun keys => keys
  rangeOrder_perm := fun keys => List.Perm.refl keys

/-- The resources discovered in the repository of a reference. -/
def ownResources (w : World) (ref : GoString) : List Resource :=
  gatherResources w (addPackage.outRoot w ref)

/-- Reference `a` depends on reference `b`: a manifest of a resource of the
repository of `a` declares `b` as a `dependency_url`. -/
def dependsOn (w : World) (a b : GoString) : Prop :=
  ∃ r ∈ ownResources w a, b ∈ r.Manifest.GetAll "dependency_url".data

/-- The fetch of a reference succeeds: the existence check and the fetch or
clone return no error. -/
def fetchSucceeds (w : World) (force : Bool) (ref : GoString) : Prop :=
  (addPackage.fetch w ref (addPackage.outRoot w ref) force).2 = none

/-- The reference of the repository `pack` of the end-to-end scenario. -/
def packURI : GoString := "https://example.test/pack.git".data

/-- The resource `baz` of the repository `dep`. -/
def bazResource : Resource :=
  ⟨"baz".data, "resources/[dep]/baz".data,
    ⟨[("client_script".data, ["a.lua".data, "b.lua".data])]⟩⟩

/-- The resource `foo` of the repository `pack`. -/
def fooResource : Resource :=
  ⟨"foo".data, "resources/[pack]/[a]/foo".data, ⟨[("description".data, ["Foo".data])]⟩⟩

/-- The resource `bar` of the repository `pack`, which declares `dep`. -/
def barResource : Resource :=
  ⟨"bar".data, "resources/[pack]/[b]/bar".data,
    ⟨[("dependency_url".data, ["https://example.test/dep.git".data])]⟩⟩

/-- The external calls of resolving `pack` in the end-to-end scenario. -/
def packTrace : List Event :=
  [.osStat "resources/[pack]".data,
   .gitPlainClone "resources/[pack]".data "https://example.test/pack.git".data,
   .filepathWalk "resources/[pack]".data,
   .osStat "resources/[dep]".data,
   .gitPlainClone "resources/[dep]".data "https://example.test/dep.git".data,
   .filepathWalk "resources/[dep]".data]

/-- A world in which the repository `twice` declares the repository `dep`
three times: twice in the manifest of its resource `one`, once in that of its
resource `two`. Nothing is present locally and every clone succeeds. -/
def twiceWorld : World where
  osStat := fun _ => .notExist
  gitPlainClone := fun _ _ => none
  gitPlainOpen := fun _ => none
  gitWorktree := fun _ => none
  gitStatus := fun _ => .ok true
  gitPull := fun _ => none
  walk := fun root =>
    if root = "resources/[twice]".data then
      [⟨"resources/[twice]".data, true, none⟩,
       ⟨"resources/[twice]/one".data, true, none⟩,
       ⟨"resources/[twice]/two".data, true, none⟩]
    else if root = "resources/[dep]".data then
      [⟨"resources/[dep]".data, true, none⟩,
       ⟨"resources/[dep]/baz".data, true, none⟩]
    else []
  luaLoadFile := fun file =>
    if file = "resources/[twice]/one/__resource.lua".data then
      .ok [.call (.global "dependency_url".data)
            (.const (.table [.string "https://example.test/dep.git".data,
              .string "https://example.test/dep.git".data]))]
    else if file = "resources/[twice]/two/__resource.lua".data then
      .ok [.call (.global "dependency_url".data)
            (.const (.scalar (.string "https://example.test/dep.git".data)))]
    else if file = "resources/[dep]/baz/__resource.lua".data then
      .ok [.call (.global "client_scripts".data)
            (.const (.table [.string "a.lua".data, .string "b.lua".data]))]
    else .error (.external 2)
  luaLibrary := standardLibrary
  lowerRune := Char.toLower
  rangeOrder := fun keys => keys
  rangeOrder_perm := fun keys => List.Perm.refl keys

/-- The reference of the repository `twice`. -/
def twiceURI : GoString := "https://example.test/twice.git".data

/-- The resource `one` of the repository `twice`. -/
def oneResource : Resource :=
  ⟨"one".data, "resources/[twice]/one".data,
    ⟨[("dependency_url".data,
      ["https://example.test/dep.git".data, "https://example.test/dep.git".data])]⟩⟩

/-- The resource `two` of the repository `twice`. -/
def twoResource : Resource :=
  ⟨"two".data, "resources/[twice]/two".data,
    ⟨[("dependency_url".data, ["https://example.test/dep.git".data])]⟩⟩

/-- The external calls of resolving `twice`. -/
def twiceTrace : List Event :=
  [.osStat "resources/[twice]".data,
   .gitPlainClone "resources/[twice]".data "https://example.test/twice.git".data,
   .filepathWalk "resources/[twice]".data,
   .osStat "resources/[dep]".data,
   .gitPlainClone "resources/[dep]".data "https://example.test/dep.git".data,
   .filepathWalk "resources/[dep]".data]

/-- The error `fetchRepo` returns for a dirty working tree (line 112). -/
def dirtyError : GoError :=
  .errorsNew "Git repository is dirty, can't update"

/-- A world in which the local copy of `pack` exists with uncommitted
modifications; pulling it succeeds and discovery finds the resource `foo`. -/
def dirtyWorld : World where
  osStat := fun name => if name = "resources/[pack]".data then .directory else .notExist
  gitPlainClone := fun _ _ => none
  gitPlainOpen := fun _ => none
  gitWorktree := fun _ => none
  gitStatus := fun _ => .ok false
  gitPull := fun _ => some .gitNoErrAlreadyUpToDate
  walk := fun root =>
    if root = "resources/[pack]".data then
      [⟨"resources/[pack]".data, true, none⟩,
       ⟨"resources/[pack]/[a]".data, true, none⟩,
       ⟨"resources/[pack]/[a]/foo".data, true, none⟩]
    else []
  luaLoadFile := fun file =>
    if file = "resources/[pack]/[a]/foo/__resource.lua".data then
      .ok [.call (.global "description".data) (.const (.scalar (.string "Foo".data)))]
    else .error (.external 2)
  luaLibrary := standardLibrary
  lowerRune := Char.toLower
  rangeOrder := fun keys => keys
  rangeOrder_perm := fun keys => List.Perm.refl keys

/-- A world in which the only resource of the repository `loop` declares the
repository `loop` itself. Nothing is present locally and every clone succeeds. -/
def cycleWorld : World where
  osStat := fun _ => .notExist
  gitPlainClone := fun _ _ => none
  gitPlainOpen := fun _ => none
  gitWorktree := fun _ => none
  gitStatus := fun _ => .ok true
  gitPull := fun _ => none
  walk := fun root =>
    if root = "resources/[loop]".data then
      [⟨"resources/[loop]".data, true, none⟩,
       ⟨"resources/[loop]/self".data, true, none⟩]
    else []
  luaLoadFile := fun file =>
    if file = "resources/[loop]/self/__resource.lua".data then
      .ok [.call (.global "dependency_url".data)
            (.const (.scalar (.string "https://example.test/loop.git".data)))]
    else .error (.external 2)
  luaLibrary := standardLibrary
  lowerRune := Char.toLower
  rangeOrder := fun keys => keys
  rangeOrder_perm := fun keys => List.Perm.refl keys

/-- The reference of the repository `loop`. -/
def loopURI : GoString := "https://example.test/loop.git".data

/-- The order the dependency-first property asks of a resolved list, for a
reference `a` that depends on a reference `b`: every position that holds a
resource of the repository of `b` is before every position that holds a
resource of the repository of `a`. -/
def dependencyFirst (w : World) (result : List Resource) (a b : GoString) : Prop :=
  ∀ i j : Fin result.length,
    result.get i ∈ ownResources w b → result.get j ∈ ownResources w a → i < j

instance dependencyFirst.decidable (w : World) (result : List Resource) (a b : GoString) :
    Decidable (dependencyFirst w result a b) := by
  unfold dependencyFirst
  infer_instance

/-- The reference of the repository `top`. -/
def topURI : GoString := "https://example.test/top.git".data

/-- The reference of the repository `addon`. -/
def addonURI : GoString := "https://example.test/addon.git".data

/-- The reference of the repository `core`. -/
def coreURI : GoString := "https://example.test/core.git".data

/-- The resource `main` of the repository `top`: it declares `core`, then
`addon`. -/
def mainResource : Resource :=
  ⟨"main".data, "resources/[top]/main".data,
    ⟨[("dependency_url".data,
      ["https://example.test/core.git".data, "https://example.test/addon.git".data])]⟩⟩

/-- The resource `extra` of the repository `addon`: it declares `core`. -/
def extraResource : Resource :=
  ⟨"extra".data, "resources/[addon]/extra".data,
    ⟨[("dependency_url".data, ["https://example.test/core.git".data])]⟩⟩

/-- The resource `base` of the repository `core`. -/
def baseResource : Resource :=
  ⟨"base".data, "resources/[core]/base".data, ⟨[("description".data, ["Base".data])]⟩⟩

/-- A world with three repositories: `top` depends on `core` and on `addon`,
`addon` depends on `core`, `core` depends on nothing. Nothing is present
locally, every clone succeeds, and a `range` visits the keys in the order of
their insertion. -/
def diamondWorld : World where
  osStat := fun _ => .notExist
  gitPlainClone := fun _ _ => none
  gitPlainOpen := fun _ => none
  gitWorktree := fun _ => none
  gitStatus := fun _ => .ok true
  gitPull := fun _ => none
  walk := fun root =>
    if root = "resources/[top]".data then
      [⟨"resources/[top]".data, true, none⟩, ⟨"resources/[top]/main".data, true, none⟩]
    else if root = "resources/[addon]".data then
      [⟨"resources/[addon]".data, true, none⟩, ⟨"resources/[addon]/extra".data, true, none⟩]
    else if root = "resources/[core]".data then
      [⟨"resources/[core]".data, true, none⟩, ⟨"resources/[core]/base".data, true, none⟩]
    else []
  luaLoadFile := fun file =>
    if file = "resources/[top]/main/__resource.lua".data then
      .ok [.call (.global "dependency_url".data)
            (.const (.table [.string "https://example.test/core.git".data,
              .string "https://example.test/addon.git".data]))]
    else if file = "resources/[addon]/extra/__resource.lua".data then
      .ok [.call (.global "dependency_url".data)
            (.const (.scalar (.string "https://example.test/core.git".data)))]
    else if file = "resources/[core]/base/__resource.lua".data then
      .ok [.call (.global "description".data) (.const (.scalar (.string "Base".data)))]
    else .error (.external 2)
  luaLibrary := standardLibrary
  lowerRune := Char.toLower
  rangeOrder := fun keys => keys
  rangeOrder_perm := fun keys => List.Perm.refl keys

/-- The height of a reference in the dependency graph of `diamondWorld`. -/
def diamondWorld.height (ref : GoString) : Nat :=
  if addPackage.outRoot diamondWorld ref = "resources/[top]".data then 2
  else if addPackage.outRoot diamondWorld ref = "resources/[addon]".data then 1
  else 0

/-- A world in which the resource `app` of the repository `needs` declares the
repositories `gone` and `dep`, in this order, and the clone of `gone` fails.
Nothing is present locally and every other clone succeeds. -/
def failWorld : World where
  osStat := fun _ => .notExist
  gitPlainClone := fun outRoot _ =>
    if outRoot = "resources/[gone]".data then some (.external 128) else none
  gitPlainOpen := fun _ => none
  gitWorktree := fun _ => none
  gitStatus := fun _ => .ok true
  gitPull := fun _ => none
  walk := fun root =>
    if root = "resources/[needs]".data then
      [⟨"resources/[needs]".data, true, none⟩,
       ⟨"resources/[needs]/app".data, true, none⟩]
    else if root = "resources/[dep]".data then
      [⟨"resources/[dep]".data, true, none⟩,
       ⟨"resources/[dep]/baz".data, true, none⟩]
    else []
  luaLoadFile := fun file =>
    if file = "resources/[needs]/app/__resource.lua".data then
      .ok [.call (.global "dependency_url".data)
            (.const (.table [.string "https://example.test/gone.git".data,
              .string "https://example.test/dep.git".data]))]
    else if file = "resources/[dep]/baz/__resource.lua".data then
      .ok [.call (.global "client_scripts".data)
            (.const (.table [.string "a.lua".data, .string "b.lua".data]))]
    else .error (.external 2)
  luaLibrary := standardLibrary
  lowerRune := Char.toLower
  rangeOrder := fun keys => keys
  rangeOrder_perm := fun keys => List.Perm.refl keys

/-- The reference of the repository `needs`. -/
def needsURI : GoString := "https://example.test/needs.git".data

/-- The error go-git returns from a pull that would have to overwrite local
modifications. -/
def unstagedChangesError : GoError :=
  .errorsNew "worktree contains unstaged changes"

/-- A world in which the local copy of `pack` exists with uncommitted
modifications and the remote has a new commit: a pull without the force option
is refused by go-git. Discovery would find the resource `foo`. -/
def staleDirtyWorld : World where
  osStat := fun name => if name = "resources/[pack]".data then .directory else .notExist
  gitPlainClone := fun _ _ => none
  gitPlainOpen := fun _ => none
  gitWorktree := fun _ => none
  gitStatus := fun _ => .ok false
  gitPull := fun _ => some unstagedChangesError
  walk := fun root =>
    if root = "resources/[pack]".data then
      [⟨"resources/[pack]".data, true, none⟩,
       ⟨"resources/[pack]/[a]".data, true, none⟩,
       ⟨"resources/[pack]/[a]/foo".data, true, none⟩]
    else []
  luaLoadFile := fun file =>
    if file = "resources/[pack]/[a]/foo/__resource.lua".data then
      .ok [.call (.global "description".data) (.const (.scalar (.string "Foo".data)))]
    else .error (.external 2)
  luaLibrary := standardLibrary
  lowerRune := Char.toLower
  rangeOrder := fun keys => keys
  rangeOrder_perm := fun keys => List.Perm.refl keys

/-! # Theorems -/

/-! ## Registry merge -/

/-- One step of the merge loop has the specified effect on the lines. -/
theorem addResources.merge_eq_append (resources : List Resource) :
    ∀ resourceLines : List GoString,
      addResources.merge resourceLines resources =
        resourceLines ++ merge.appended resourceLines (resources.map (fun r => r.Name)) := by
  induction resources with
  | nil => intro resourceLines; simp [addResources.merge, merge.appended]
  | cons r rest ih =>
    intro resourceLines
    have hstep : addResources.merge resourceLines (r :: rest) =
        addResources.merge
          (if r.Name ∈ resourceLines then resourceLines else resourceLines ++ [r.Name]) rest := by
      simp only [addResources.merge, List.foldl_cons]
      congr 1
      by_cases h : r.Name ∈ resourceLines
      · have : (resourceLines.any fun line => decide (line = r.Name)) = true := by
          simp [List.any_eq_true, h]
        simp [this, h]
      · have : (resourceLines.any fun line => decide (line = r.Name)) = false := by
          simp only [List.any_eq_false, decide_eq_true_eq]
          intro x hx hxe
          exact h (hxe ▸ hx)
        simp [this, h]
    rw [hstep, ih]
    by_cases h : r.Name ∈ resourceLines
    · simp [merge.appended, h]
    · simp [merge.appended, h]

/-- C1: the registry merge of `addResources` returns the existing names
unchanged and in order as a prefix, followed in `newResources` order by the
name of each resource that is not present, present meaning equal to an
existing name or to a name appended earlier in the same merge; on existing
names x, y and resources named y, z it returns x, y, z. -/
theorem C1_merge_preserves_and_appends (existing : List GoString) (newResources : List Resource) :
    addResources.merge existing newResources =
        existing ++ merge.appended existing (newResources.map (fun r => r.Name)) ∧
      ∀ (p1 p2 : GoString) (m1 m2 : Manifest),
        addResources.merge ["x".data, "y".data] [⟨"y".data, p1, m1⟩, ⟨"z".data, p2, m2⟩] =
          ["x".data, "y".data, "z".data] := by
  refine ⟨addResources.merge_eq_append newResources existing, ?_⟩
  intro p1 p2 m1 m2
  rw [addResources.merge_eq_append]
  simp only [List.map_cons, List.map_nil]
  decide

/-! ## Facts about the string functions -/

theorem strings.Split_ne_nil (s : GoString) (sep : Char) : strings.Split s sep ≠ [] := by
  cases s with
  | nil => simp [strings.Split]
  | cons c cs =>
    unfold strings.Split
    split
    · simp
    · split <;> simp

theorem strings.Split_cons_ne (c : Char) (cs : GoString) (sep : Char) (h : c ≠ sep) :
    strings.Split (c :: cs) sep =
      (c :: (strings.Split cs sep).headD []) :: (strings.Split cs sep).tail := by
  have hne := strings.Split_ne_nil cs sep
  rw [strings.Split]
  simp only [h, if_false]
  cases hs : strings.Split cs sep with
  | nil => exact absurd hs hne
  | cons a t => simp

theorem strings.Split_cons_eq (cs : GoString) (sep : Char) :
    strings.Split (sep :: cs) sep = [] :: strings.Split cs sep := by
  rw [strings.Split]
  simp

theorem strings.Split_of_not_mem (s : GoString) (sep : Char) (h : sep ∉ s) :
    strings.Split s sep = [s] := by
  induction s with
  | nil => simp [strings.Split]
  | cons c cs ih =>
    have hc : c ≠ sep := fun e => h (by simp [e])
    have hcs : sep ∉ cs := fun e => h (by simp [e])
    rw [strings.Split_cons_ne c cs sep hc, ih hcs]
    simp

theorem strings.Split_append_sep (a b : GoString) (sep : Char) :
    strings.Split (a ++ sep :: b) sep =
      (strings.Split a sep).dropLast ++
        ((strings.Split a sep).getLastD []) :: strings.Split b sep := by
  induction a with
  | nil => simp [strings.Split]
  | cons c cs ih =>
    by_cases hc : c = sep
    · subst hc
      rw [List.cons_append, strings.Split_cons_eq, strings.Split_cons_eq, ih]
      have hne := strings.Split_ne_nil cs c
      cases hs : strings.Split cs c with
      | nil => exact absurd hs hne
      | cons x t => simp
    · rw [List.cons_append, strings.Split_cons_ne c _ sep hc, strings.Split_cons_ne c cs sep hc, ih]
      have hne := strings.Split_ne_nil cs sep
      cases hs : strings.Split cs sep with
      | nil => exact absurd hs hne
      | cons x t =>
        cases t with
        | nil => simp
        | cons y t2 => simp

theorem strings.Split_append_sep_of_not_mem (a b : GoString) (sep : Char) (h : sep ∉ a) :
    strings.Split (a ++ sep :: b) sep = a :: strings.Split b sep := by
  rw [strings.Split_append_sep, strings.Split_of_not_mem a sep h]
  simp

theorem strings.Split_not_mem (s : GoString) (sep : Char) :
    ∀ x ∈ strings.Split s sep, sep ∉ x := by
  induction s with
  | nil => simp [strings.Split]
  | cons c cs ih =>
    intro x hx
    have hne := strings.Split_ne_nil cs sep
    by_cases hc : c = sep
    · subst hc
      rw [strings.Split_cons_eq] at hx
      rcases List.mem_cons.1 hx with rfl | hx
      · simp
      · exact ih x hx
    · rw [strings.Split_cons_ne c cs sep hc] at hx
      cases hs : strings.Split cs sep with
      | nil => exact absurd hs hne
      | cons y t =>
        rw [hs] at hx ih
        simp only [List.headD_cons, List.tail_cons, List.mem_cons] at hx
        rcases hx with rfl | hx
        · intro hmem
          rcases List.mem_cons.1 hmem with e | e
          · exact hc e.symm
          · exact ih y (by simp) e
        · exact ih x (by simp [hx])

theorem strings.Split_subset (s : GoString) (sep : Char) :
    ∀ x ∈ strings.Split s sep, ∀ c ∈ x, c ∈ s := by
  induction s with
  | nil => simp [strings.Split]
  | cons c cs ih =>
    intro x hx d hd
    have hne := strings.Split_ne_nil cs sep
    by_cases hc : c = sep
    · subst hc
      rw [strings.Split_cons_eq] at hx
      rcases List.mem_cons.1 hx with rfl | hx
      · simp at hd
      · exact List.mem_cons_of_mem _ (ih x hx d hd)
    · rw [strings.Split_cons_ne c cs sep hc] at hx
      cases hs : strings.Split cs sep with
      | nil => exact absurd hs hne
      | cons y t =>
        rw [hs] at hx ih
        simp only [List.headD_cons, List.tail_cons, List.mem_cons] at hx
        rcases hx with rfl | hx
        · rcases List.mem_cons.1 hd with e | e
          · simp [e]
          · exact List.mem_cons_of_mem _ (ih y (by simp) d e)
        · exact List.mem_cons_of_mem _ (ih x (by simp [hx]) d hd)

theorem strings.Split_headD (s : GoString) (sep : Char) :
    (strings.Split s sep).headD [] = s.takeWhile (fun c => c ≠ sep) := by
  induction s with
  | nil => simp [strings.Split]
  | cons c cs ih =>
    by_cases hc : c = sep
    · subst hc
      rw [strings.Split_cons_eq]
      simp
    · rw [strings.Split_cons_ne c cs sep hc]
      simp only [List.headD_cons, List.takeWhile_cons, ne_eq, hc, not_false_eq_true,
        decide_True, if_true, List.cons.injEq, true_and]
      exact ih

theorem getLastD_cons_head_tail (c : Char) (L : List GoString) (h : 2 ≤ L.length) :
    ((c :: L.headD []) :: L.tail).getLastD [] = L.getLastD [] := by
  cases L with
  | nil => simp at h
  | cons x t =>
    cases t with
    | nil => simp at h
    | cons y t2 => simp [List.getLastD_cons]

theorem afterLast_eq (sep : Char) (s : GoString) :
    ∀ cur : GoString,
      afterLast sep s cur = if sep ∈ s then (strings.Split s sep).getLastD [] else cur := by
  induction s with
  | nil => intro cur; simp [afterLast]
  | cons c cs ih =>
    intro cur
    by_cases hc : c = sep
    · subst hc
      rw [afterLast]
      simp only [if_true, List.mem_cons, true_or, strings.Split_cons_eq]
      rw [ih]
      have hne := strings.Split_ne_nil cs c
      by_cases hm : c ∈ cs
      · simp only [hm, if_true]
        cases hs : strings.Split cs c with
        | nil => exact absurd hs hne
        | cons x t => simp [List.getLastD_cons]
      · simp [hm, strings.Split_of_not_mem cs c hm]
    · rw [afterLast]
      simp only [hc, if_false]
      rw [ih, strings.Split_cons_ne c cs sep hc]
      have hsep : (sep ∈ c :: cs) ↔ sep ∈ cs := by
        simp only [List.mem_cons]
        constructor
        · rintro (e | e)
          · exact absurd e.symm hc
          · exact e
        · exact Or.inr
      by_cases hm : sep ∈ cs
      · simp only [hm, hsep, if_true]
        obtain ⟨a, b, rfl⟩ := List.append_of_mem hm
        symm
        apply getLastD_cons_head_tail
        rw [strings.Split_append_sep]
        have hne := strings.Split_ne_nil b sep
        cases hb : strings.Split b sep with
        | nil => exact absurd hb hne
        | cons y t => simp; omega
      · simp [hm, hsep]

theorem path.Split_snd (p : GoString) : (path.Split p).2 = reference.lastSegment p := by
  simp only [path.Split, reference.lastSegment]
  rw [afterLast_eq]
  by_cases hm : '/' ∈ p
  · simp [hm]
  · simp [hm, strings.Split_of_not_mem p '/' hm]

/-! ## Package name and local path -/

theorem filepath.Join_resources (name : GoString) (h : '/' ∉ name) :
    filepath.Join ["resources".data, '[' :: (name ++ [']'])] =
      "resources/".data ++ ('[' :: (name ++ [']'])) := by
  have hres : '/' ∉ "resources".data := by decide
  have hbr : '/' ∉ '[' :: (name ++ [']']) := by
    simp only [List.mem_cons, List.mem_append, List.mem_singleton, not_or]
    exact ⟨by decide, h, by decide, List.not_mem_nil _⟩
  have hsplit : strings.Split ("resources".data ++ '/' :: ('[' :: (name ++ [']']))) '/' =
      ["resources".data, '[' :: (name ++ [']'])] := by
    rw [strings.Split_append_sep_of_not_mem _ _ _ hres, strings.Split_of_not_mem _ _ hbr]
  have hjoin : ['/'].intercalate ["resources".data, '[' :: (name ++ [']'])] =
      "resources".data ++ '/' :: ('[' :: (name ++ [']'])) := by
    simp [List.intercalate, List.intersperse]
  have hfilter : (["resources".data, '[' :: (name ++ [']'])].filter (fun e => e ≠ [])) =
      ["resources".data, '[' :: (name ++ [']'])] := by
    rw [List.filter_eq_self]
    intro e he
    simp only [List.mem_cons, List.mem_singleton, List.not_mem_nil, or_false] at he
    rcases he with rfl | rfl
    · decide
    · simp
  have hclean : filepath.cleanElems false ["resources".data, '[' :: (name ++ [']'])] [] =
      ["resources".data, '[' :: (name ++ [']'])] := by
    have h1 : ¬ ("resources".data = [] ∨ "resources".data = ['.']) := by decide
    have h2 : ¬ ("resources".data = ['.', '.']) := by decide
    have h3 : ¬ (('[' :: (name ++ [']'])) = [] ∨ ('[' :: (name ++ [']'])) = ['.']) := by
      simp
    have h4 : ¬ (('[' :: (name ++ [']'])) = ['.', '.']) := by
      simp
    rw [filepath.cleanElems, if_neg h1, if_neg h2, filepath.cleanElems, if_neg h3, if_neg h4,
      filepath.cleanElems]
    rfl
  unfold filepath.Join
  rw [hfilter]
  simp only [filepath.Clean, hjoin, hsplit]
  have hroot : strings.HasPrefix ("resources".data ++ '/' :: '[' :: (name ++ [']'])) ['/'] = false := by
    rfl
  rw [hroot]
  simp only [hclean, hjoin]
  simp

theorem Char.toLower_ne_slash (c : Char) (h : c ≠ '/') : c.toLower ≠ '/' := by
  unfold Char.toLower
  simp only []
  split
  · rename_i hr
    obtain ⟨h1, h2⟩ := hr
    generalize c.toNat = n at h1 h2
    have h1' : 65 ≤ n := h1
    have h2' : n ≤ 90 := h2
    interval_cases n <;> decide
  · exact h

/-- C9: the package name `addPackage` derives is the last slash-separated
segment of the reference, stripped of any extension (cut at its first dot) and
lower-cased, and the local path is the directory named after that package name,
in square brackets, under the fixed root `resources`; the reference
`https://example.test/pack.git` gives the name `pack`. -/
theorem C9_package_name_and_path (w : World) (packageURI : GoString)
    (hslash : ∀ c : Char, c ≠ '/' → w.lowerRune c ≠ '/') :
    strings.ToLower w.lowerRune (addPackage.packageName packageURI) =
        reference.packageName w.lowerRune packageURI ∧
      addPackage.outRoot w packageURI =
        "resources/".data ++ ("[".data ++ reference.packageName w.lowerRune packageURI ++ "]".data) ∧
      addPackage.packageName "https://example.test/pack.git".data = "pack".data := by
  have hname : strings.ToLower w.lowerRune (addPackage.packageName packageURI) =
      reference.packageName w.lowerRune packageURI := by
    simp only [strings.ToLower, addPackage.packageName, reference.packageName,
      reference.stripExtension, strings.Split_headD, path.Split_snd]
  refine ⟨hname, ?_, by decide⟩
  have hns : '/' ∉ reference.packageName w.lowerRune packageURI := by
    simp only [reference.packageName, List.mem_map, not_exists, not_and]
    intro c hc
    apply hslash
    intro hce
    subst hce
    have hmem : '/' ∈ reference.lastSegment packageURI :=
      (List.takeWhile_sublist _).subset hc
    have hne := strings.Split_ne_nil packageURI '/'
    have hlast : reference.lastSegment packageURI ∈ strings.Split packageURI '/' := by
      unfold reference.lastSegment
      cases hs : strings.Split packageURI '/' with
      | nil => exact absurd hs hne
      | cons x t =>
        rw [List.getLastD_cons]
        cases t with
        | nil => simp
        | cons y t2 =>
          have := List.getLast_mem (List.cons_ne_nil y t2)
          rw [List.getLastD_eq_getLast?, List.getLast?_eq_getLast _ (List.cons_ne_nil y t2)]
          exact List.mem_cons_of_mem _ this
    exact strings.Split_not_mem packageURI '/' _ hlast hmem
  unfold addPackage.outRoot
  simp only [hname]
  exact filepath.Join_resources _ hns

/-- C9 at the reference of the end-to-end scenario. -/
theorem C9_package_name_and_path_witness :
    (∀ c : Char, c ≠ '/' → packWorld.lowerRune c ≠ '/') ∧
      addPackage.outRoot packWorld "https://example.test/Pack.git".data =
        "resources/[pack]".data :=
  ⟨Char.toLower_ne_slash,
    ((C9_package_name_and_path packWorld "https://example.test/Pack.git".data
      Char.toLower_ne_slash).2.1).trans (by decide)⟩

/-! ## Registering twice -/

theorem strings.TrimSpace_eq (s : GoString) :
    strings.TrimSpace s = (s.dropWhile unicode.IsSpace).rdropWhile unicode.IsSpace := rfl

theorem dropWhile_head_not (p : Char → Bool) (l : GoString) (c : Char) (r : GoString)
    (h : l.dropWhile p = c :: r) : p c = false := by
  induction l with
  | nil => simp at h
  | cons a t ih =>
    rw [List.dropWhile_cons] at h
    by_cases ha : p a = true
    · rw [if_pos ha] at h
      exact ih h
    · rw [if_neg ha] at h
      injection h with h1 h2
      subst h1
      simpa using ha

theorem strings.TrimSpace_idempotent (s : GoString) :
    strings.TrimSpace (strings.TrimSpace s) = strings.TrimSpace s := by
  have hpre : strings.TrimSpace s <+: s.dropWhile unicode.IsSpace := by
    rw [strings.TrimSpace_eq]
    exact List.rdropWhile_prefix _ _
  have hdrop : (strings.TrimSpace s).dropWhile unicode.IsSpace = strings.TrimSpace s := by
    obtain ⟨t, ht⟩ := hpre
    cases hts : strings.TrimSpace s with
    | nil => rfl
    | cons c u =>
      rw [hts] at ht
      have hc := dropWhile_head_not unicode.IsSpace s c (u ++ t) ht.symm
      simp [List.dropWhile_cons, hc]
  have hr : (strings.TrimSpace s).rdropWhile unicode.IsSpace = strings.TrimSpace s := by
    rw [strings.TrimSpace_eq]
    exact List.rdropWhile_idempotent _ _
  rw [strings.TrimSpace_eq (strings.TrimSpace s), hdrop, hr]

theorem strings.TrimSpace_subset (s : GoString) : ∀ c ∈ strings.TrimSpace s, c ∈ s := by
  intro c hc
  rw [strings.TrimSpace_eq] at hc
  exact (List.dropWhile_sublist _).subset ((List.rdropWhile_prefix _ _).subset hc)

theorem strings.TrimSpace_append_cr (name : GoString) (h : strings.TrimSpace name = name) :
    strings.TrimSpace (name ++ ['\r']) = name := by
  cases name with
  | nil => decide
  | cons c t =>
    have hlen1 : (strings.TrimSpace (c :: t)).length ≤
        ((c :: t).dropWhile unicode.IsSpace).length := by
      rw [strings.TrimSpace_eq]
      exact (List.rdropWhile_prefix _ _).length_le
    have hsuf : ((c :: t).dropWhile unicode.IsSpace) <:+ (c :: t) := List.dropWhile_suffix _
    have hd : (c :: t).dropWhile unicode.IsSpace = c :: t := by
      apply hsuf.eq_of_length_le
      rw [h] at hlen1
      exact hlen1
    have hc : unicode.IsSpace c = false := by
      rw [List.dropWhile_eq_self_iff] at hd
      have := hd (by simp)
      simpa using this
    have hr : (c :: t).rdropWhile unicode.IsSpace = c :: t := by
      rw [strings.TrimSpace_eq, hd] at h
      exact h
    have hd2 : ((c :: t) ++ ['\r']).dropWhile unicode.IsSpace = (c :: t) ++ ['\r'] := by
      simp [List.dropWhile_cons, hc]
    rw [strings.TrimSpace_eq, hd2, List.rdropWhile_concat_pos _ _ _ (by decide), hr]

theorem parseResourceLines.line_start (resources : List GoString) (name : GoString)
    (h : registryName name) :
    parseResourceLines.line resources ("start ".data ++ name ++ "\r".data) =
      resources ++ [name] := by
  obtain ⟨hsp, _, htrim⟩ := h
  have hpre : strings.HasPrefix ("start ".data ++ name ++ "\r".data) "start ".data = true := by
    simp only [strings.HasPrefix, List.isPrefixOf_iff_prefix]
    exact ⟨name ++ "\r".data, by simp⟩
  have hsplit : strings.Split ("start ".data ++ name ++ "\r".data) ' ' =
      ["start".data, name ++ ['\r']] := by
    have e : "start ".data ++ name ++ "\r".data = "start".data ++ ' ' :: (name ++ ['\r']) := by
      show "start ".data ++ name ++ ['\r'] = "start".data ++ ' ' :: (name ++ ['\r'])
      simp
    rw [e, strings.Split_append_sep_of_not_mem _ _ _ (by decide),
      strings.Split_of_not_mem]
    simp only [List.mem_append, List.mem_singleton, not_or]
    exact ⟨hsp, by decide⟩
  unfold parseResourceLines.line
  rw [if_pos hpre]
  simp only [hsplit]
  simp [strings.TrimSpace_append_cr name htrim]

theorem parseResourceLines.foldl_lines (names : List GoString)
    (h : ∀ name ∈ names, registryName name) :
    ∀ resources : List GoString,
      (strings.Split
          (names.map (fun line => "start ".data ++ line ++ "\r\n".data)).flatten '\n').foldl
        parseResourceLines.line resources = resources ++ names := by
  induction names with
  | nil =>
    intro resources
    simp only [List.map_nil, List.flatten_nil, strings.Split, List.foldl_cons, List.foldl_nil,
      List.append_nil]
    rfl
  | cons name rest ih =>
    intro resources
    have hname := h name (by simp)
    have e : ((name :: rest).map (fun line => "start ".data ++ line ++ "\r\n".data)).flatten =
        ("start ".data ++ name ++ "\r".data) ++
          '\n' :: (rest.map (fun line => "start ".data ++ line ++ "\r\n".data)).flatten := by
      simp only [List.map_cons, List.flatten_cons]
      show ("start ".data ++ name ++ ['\r', '\n']) ++ _ = ("start ".data ++ name ++ ['\r']) ++ _
      simp
    have hnl : '\n' ∉ "start ".data ++ name ++ "\r".data := by
      simp only [List.mem_append, not_or]
      exact ⟨⟨by decide, hname.2.1⟩, by decide⟩
    rw [e, strings.Split_append_sep_of_not_mem _ _ _ hnl, List.foldl_cons,
      parseResourceLines.line_start _ _ hname, ih (fun n hn => h n (by simp [hn]))]
    simp

/-- Reading back what `writeResourceLines` wrote gives the names written, when
each of them is a name the file can hold. -/
theorem parseResourceLines.parse_buffer (names : List GoString)
    (h : ∀ name ∈ names, registryName name) :
    parseResourceLines.parse (writeResourceLines.buffer names) = names := by
  have e : writeResourceLines.buffer names =
      "# THIS FILE IS AUTOMATICALLY-GENERATED\r".data ++ '\n' ::
        ("# DO NOT ADD ANYTHING OTHER THAN `start` LINES\r".data ++ '\n' ::
          (names.map (fun line => "start ".data ++ line ++ "\r\n".data)).flatten) := rfl
  unfold parseResourceLines.parse
  rw [e, strings.Split_append_sep_of_not_mem _ _ _ (by decide),
    strings.Split_append_sep_of_not_mem _ _ _ (by decide)]
  simp only [List.foldl_cons]
  have l1 : parseResourceLines.line [] "# THIS FILE IS AUTOMATICALLY-GENERATED\r".data = [] := by
    decide
  have l2 : parseResourceLines.line [] "# DO NOT ADD ANYTHING OTHER THAN `start` LINES\r".data
      = [] := by
    decide
  rw [l1, l2, parseResourceLines.foldl_lines names h]
  simp

theorem parseResourceLines.line_registryName (resources : List GoString) (line : GoString)
    (hline : '\n' ∉ line) (h : ∀ name ∈ resources, registryName name) :
    ∀ name ∈ parseResourceLines.line resources line, registryName name := by
  unfold parseResourceLines.line
  split
  · simp only []
    split
    · rename_i hlen
      intro name hname
      rcases List.mem_append.1 hname with hn | hn
      · exact h name hn
      · rw [List.mem_singleton] at hn
        subst hn
        have hmem : (strings.Split line ' ').getD 1 [] ∈ strings.Split line ' ' := by
          cases hs : strings.Split line ' ' with
          | nil => rw [hs] at hlen; simp at hlen
          | cons x t =>
            cases t with
            | nil => rw [hs] at hlen; simp at hlen
            | cons y t2 => simp
        refine ⟨?_, ?_, strings.TrimSpace_idempotent _⟩
        · intro hc
          exact strings.Split_not_mem line ' ' _ hmem (strings.TrimSpace_subset _ _ hc)
        · intro hc
          exact hline (strings.Split_subset line ' ' _ hmem _ (strings.TrimSpace_subset _ _ hc))
    · exact h
  · exact h

/-- Every name `parseResourceLines` reads is a name the file can hold. -/
theorem parseResourceLines.parse_registryName (fileText : GoString) :
    ∀ name ∈ parseResourceLines.parse fileText, registryName name := by
  unfold parseResourceLines.parse
  have key : ∀ (lines : List GoString), (∀ l ∈ lines, '\n' ∉ l) →
      ∀ resources : List GoString, (∀ name ∈ resources, registryName name) →
        ∀ name ∈ lines.foldl parseResourceLines.line resources, registryName name := by
    intro lines
    induction lines with
    | nil => intro _ resources h; simpa using h
    | cons l rest ih =>
      intro hl resources h
      rw [List.foldl_cons]
      exact ih (fun x hx => hl x (by simp [hx])) _
        (parseResourceLines.line_registryName resources l (hl l (by simp)) h)
  exact key _ (strings.Split_not_mem fileText '\n') [] (by simp)

theorem merge.appended_subset (names : List GoString) :
    ∀ present : List GoString, ∀ name ∈ merge.appended present names, name ∈ names := by
  induction names with
  | nil => intro present name h; simp [merge.appended] at h
  | cons n rest ih =>
    intro present name h
    rw [merge.appended] at h
    by_cases hn : n ∈ present
    · rw [if_pos hn] at h
      exact List.mem_cons_of_mem _ (ih present name h)
    · rw [if_neg hn] at h
      rcases List.mem_cons.1 h with e | e
      · simp [e]
      · exact List.mem_cons_of_mem _ (ih _ name e)

theorem merge.appended_eq_nil (names : List GoString) (present : List GoString)
    (h : ∀ name ∈ names, name ∈ present) : merge.appended present names = [] := by
  induction names with
  | nil => simp [merge.appended]
  | cons n rest ih =>
    rw [merge.appended, if_pos (h n (by simp))]
    exact ih (fun x hx => h x (by simp [hx]))

theorem merge.mem_append_appended (names : List GoString) :
    ∀ present : List GoString, ∀ name ∈ names,
      name ∈ present ++ merge.appended present names := by
  induction names with
  | nil => intro present name h; simp at h
  | cons n rest ih =>
    intro present name h
    rw [merge.appended]
    by_cases hn : n ∈ present
    · rw [if_pos hn]
      rcases List.mem_cons.1 h with e | e
      · subst e
        exact List.mem_append_left _ hn
      · exact ih present name e
    · rw [if_neg hn]
      rcases List.mem_cons.1 h with e | e
      · subst e
        simp
      · have := ih (present ++ [n]) name e
        simpa [List.append_assoc] using this

/-- Merging the same resources into the result of a merge changes nothing. -/
theorem addResources.merge_merge (resourceLines : List GoString) (resources : List Resource) :
    addResources.merge (addResources.merge resourceLines resources) resources =
      addResources.merge resourceLines resources := by
  rw [addResources.merge_eq_append resources (addResources.merge resourceLines resources)]
  rw [merge.appended_eq_nil]
  · simp
  · intro name hname
    rw [addResources.merge_eq_append]
    exact merge.mem_append_appended _ _ name hname

theorem addResources.merge_registryName (resourceLines : List GoString)
    (resources : List Resource) (h1 : ∀ name ∈ resourceLines, registryName name)
    (h2 : ∀ r ∈ resources, registryName r.Name) :
    ∀ name ∈ addResources.merge resourceLines resources, registryName name := by
  intro name hname
  rw [addResources.merge_eq_append] at hname
  rcases List.mem_append.1 hname with e | e
  · exact h1 name e
  · have := merge.appended_subset _ _ name e
    obtain ⟨r, hr, rfl⟩ := List.mem_map.1 this
    exact h2 r hr

/-- C7, as the code has it: when every resource name is one the registry file
can hold (no space or line feed in it, no white space at either end), running
`addResources` a second time with the same resources leaves every file,
the registry file included, as the first run left it. -/
theorem C7_second_run_changes_nothing (resources : List Resource) (file : GoString)
    (fs : FileSystem) (hnames : ∀ r ∈ resources, registryName r.Name) :
    (addResources resources file (addResources resources file fs).2.2).2.2 =
      (addResources resources file fs).2.2 := by
  cases hp : parseResourceLines fs file with
  | error err =>
    have h1 : (addResources resources file fs).2.2 = fs := by
      simp [addResources, hp]
    rw [h1, h1]
  | ok resourceLines =>
    have hlines : ∀ name ∈ resourceLines, registryName name := by
      unfold parseResourceLines at hp
      cases hf : fs file with
      | missing =>
        rw [hf] at hp
        injection hp with hp
        rw [← hp]
        exact parseResourceLines.parse_registryName _
      | content data =>
        rw [hf] at hp
        injection hp with hp
        rw [← hp]
        exact parseResourceLines.parse_registryName _
      | unreadable err =>
        rw [hf] at hp
        cases hp
    have h1 : (addResources resources file fs).2.2 =
        fun name => if name = file then
          .content (writeResourceLines.buffer (addResources.merge resourceLines resources))
        else fs name := by
      simp [addResources, hp, writeResourceLines]
    rw [h1]
    have hp2 : parseResourceLines
        (fun name => if name = file then
          FileState.content (writeResourceLines.buffer (addResources.merge resourceLines resources))
        else fs name) file = .ok (addResources.merge resourceLines resources) := by
      simp only [parseResourceLines, if_true]
      rw [parseResourceLines.parse_buffer _
        (addResources.merge_registryName resourceLines resources hlines hnames)]
    simp only [addResources, hp2, writeResourceLines, addResources.merge_merge]
    funext name
    by_cases hn : name = file
    · simp [hn]
    · simp [hn]

/-- C7 on a missing registry file and the resource `foo`. -/
theorem C7_second_run_changes_nothing_witness :
    (∀ r ∈ [(⟨"foo".data, "resources/[pack]/foo".data, ⟨[]⟩⟩ : Resource)],
        registryName r.Name) ∧
      (addResources [⟨"foo".data, "resources/[pack]/foo".data, ⟨[]⟩⟩] "resources.cfg".data
          (addResources [⟨"foo".data, "resources/[pack]/foo".data, ⟨[]⟩⟩] "resources.cfg".data
            noFiles).2.2).2.2 =
        (addResources [⟨"foo".data, "resources/[pack]/foo".data, ⟨[]⟩⟩] "resources.cfg".data
          noFiles).2.2 :=
  ⟨by decide,
    C7_second_run_changes_nothing [⟨"foo".data, "resources/[pack]/foo".data, ⟨[]⟩⟩]
      "resources.cfg".data noFiles (by decide)⟩

/-- C7 fails for a resource whose name has a space in it: the first run writes
the line `start my res`, the second run reads the name `my` from it, does not
find `my res`, and writes both names. -/
theorem C7_counterexample_name_with_space :
    (addResources [spacedResource] "resources.cfg".data noFiles).2.2 "resources.cfg".data =
        .content ("# THIS FILE IS AUTOMATICALLY-GENERATED\r\n".data ++
          "# DO NOT ADD ANYTHING OTHER THAN `start` LINES\r\n".data ++
          "start my res\r\n".data) ∧
      (addResources [spacedResource] "resources.cfg".data
          (addResources [spacedResource] "resources.cfg".data noFiles).2.2).2.2
          "resources.cfg".data =
        .content ("# THIS FILE IS AUTOMATICALLY-GENERATED\r\n".data ++
          "# DO NOT ADD ANYTHING OTHER THAN `start` LINES\r\n".data ++
          "start my\r\nstart my res\r\n".data) ∧
      (addResources [spacedResource] "resources.cfg".data
          (addResources [spacedResource] "resources.cfg".data noFiles).2.2).2.2
          "resources.cfg".data ≠
        (addResources [spacedResource] "resources.cfg".data noFiles).2.2 "resources.cfg".data := by
  decide

/-! ## The manifest interpreter -/

theorem ManifestValues.get_append_self (values : ManifestValues) (key value : GoString) :
    (values.append key value).get key = values.get key ++ [value] := by
  induction values with
  | nil => simp [ManifestValues.append, ManifestValues.get]
  | cons p rest ih =>
    obtain ⟨k, vs⟩ := p
    by_cases hk : k = key
    · simp [ManifestValues.append, ManifestValues.get, hk]
    · simp [ManifestValues.append, ManifestValues.get, hk, ih]

theorem ManifestValues.get_append_other (values : ManifestValues) (key value other : GoString)
    (h : other ≠ key) : (values.append key value).get other = values.get other := by
  induction values with
  | nil =>
    simp only [ManifestValues.append, ManifestValues.get]
    rw [if_neg (fun e => h e.symm)]
  | cons p rest ih =>
    obtain ⟨k, vs⟩ := p
    by_cases hk : k = key
    · subst hk
      have hko : ¬ k = other := fun e => h e.symm
      simp [ManifestValues.append, ManifestValues.get, hko]
    · by_cases hko : k = other
      · subst hko
        simp [ManifestValues.append, ManifestValues.get, hk]
      · simp [ManifestValues.append, ManifestValues.get, hk, hko, ih]

/-- Recording a list of strings under one key appends them, in order, to the
list of that key and leaves every other key as it was. -/
theorem AddMetaData_foldl_strings (key : GoString) (items : List GoString) :
    ∀ values : ManifestValues,
      ((items.map LuaScalar.string).foldl
          (fun vs v => AddMetaData vs (.scalar (.string key)) (.scalar v)) values).get key =
        values.get key ++ items ∧
      ∀ other : GoString, other ≠ key →
        ((items.map LuaScalar.string).foldl
          (fun vs v => AddMetaData vs (.scalar (.string key)) (.scalar v)) values).get other =
        values.get other := by
  induction items with
  | nil => intro values; simp
  | cons x rest ih =>
    intro values
    simp only [List.map_cons, List.foldl_cons]
    have hstep : AddMetaData values (.scalar (.string key)) (.scalar (.string x)) =
        values.append key x := rfl
    rw [hstep]
    obtain ⟨h1, h2⟩ := ih (values.append key x)
    refine ⟨?_, ?_⟩
    · rw [h1, ManifestValues.get_append_self]
      simp
    · intro other ho
      rw [h2 other ho, ManifestValues.get_append_other _ _ _ _ ho]

theorem ipairs_strings (items : List GoString) :
    ipairs (items.map LuaScalar.string) = items.map LuaScalar.string := by
  unfold ipairs
  rw [List.takeWhile_eq_self_iff]
  intro v hv
  obtain ⟨s, _, rfl⟩ := List.mem_map.1 hv
  simp

/-- While the manifest runs, an undefined global reads as the closure of
`__index` for its name. -/
theorem getGlobal_undefined (t : GoString → LuaValue) (k : GoString)
    (h : t k = .scalar .nil) : getGlobal t k = .function (.field k) := by
  simp [getGlobal, __index, h, LuaValue.truthy]

/-- C5: for a global name `k` that is undefined when the manifest runs and a
manifest whose body is the single call `k(v)`: a string `x` gives a manifest
with `GetAll(k) = [x]`; a sequence of strings gives a manifest whose `GetAll` at
`k` without its final `s` (at `k` when it has none) is the sequence in order;
nothing is recorded under any other key. -/
theorem C5_single_declaration (w : World) (resourceRoot k : GoString) (v : LuaValue)
    (hload : w.luaLoadFile (filepath.Join [resourceRoot, "__resource.lua".data]) =
      .ok [.call (.global k) (.const v)])
    (hundefined : sandboxGlobals w.luaLibrary k = .scalar .nil) :
    (∀ x : GoString, v = .scalar (.string x) →
      ∃ m : Manifest, openManifest w resourceRoot = .ok m ∧ m.GetAll k = [x] ∧
        ∀ other : GoString, other ≠ k → m.GetAll other = []) ∧
    (∀ items : List GoString, v = .table (items.map LuaScalar.string) →
      ∃ m : Manifest, openManifest w resourceRoot = .ok m ∧
        m.GetAll (metadataKey.singular k) = items ∧
        ∀ other : GoString, other ≠ metadataKey.singular k → m.GetAll other = []) := by
  have hg := getGlobal_undefined _ k hundefined
  constructor
  · intro x hv
    subst hv
    refine ⟨⟨[(k, [x])]⟩, ?_, ?_, ?_⟩
    · simp only [openManifest, hload, runChunk, LuaExpr.eval, hg, callValue, fieldCall]
      rfl
    · simp [Manifest.GetAll, ManifestValues.get]
    · intro other ho
      simp only [Manifest.GetAll, ManifestValues.get]
      rw [if_neg (fun e => ho e.symm)]
  · intro items hv
    subst hv
    obtain ⟨h1, h2⟩ := AddMetaData_foldl_strings (metadataKey.singular k) items []
    refine ⟨⟨(items.map LuaScalar.string).foldl
      (fun vs v => AddMetaData vs (.scalar (.string (metadataKey.singular k))) (.scalar v)) []⟩,
      ?_, ?_, ?_⟩
    · have hkey : (if endsInS k = true then k.dropLast else k) = metadataKey.singular k := by
        simp [endsInS, metadataKey.singular]
      simp only [openManifest, hload, runChunk, LuaExpr.eval, hg, callValue, fieldCall,
        ipairs_strings, hkey]
    · simpa [Manifest.GetAll, ManifestValues.get] using h1
    · intro other ho
      simpa [Manifest.GetAll, ManifestValues.get] using h2 other ho

/-- C5 on the manifests `field "x"` and `fields { "a", "b" }`. -/
theorem C5_single_declaration_witness :
    (∃ m : Manifest, openManifest manifestWorld "one".data = .ok m ∧
        m.GetAll "field".data = ["x".data] ∧
        ∀ other : GoString, other ≠ "field".data → m.GetAll other = []) ∧
      (∃ m : Manifest, openManifest manifestWorld "two".data = .ok m ∧
        m.GetAll "field".data = ["a".data, "b".data] ∧
        ∀ other : GoString, other ≠ "field".data → m.GetAll other = []) :=
  ⟨(C5_single_declaration manifestWorld "one".data "field".data
      (.scalar (.string "x".data)) rfl (by decide)).1 "x".data rfl,
    (C5_single_declaration manifestWorld "two".data "fields".data
      (.table [.string "a".data, .string "b".data]) rfl (by decide)).2
      ["a".data, "b".data] rfl⟩

theorem sandboxGlobals_denied (lib : LuaLibrary) (d : GoString) (hd : d ∈ unsafeLibraries) :
    sandboxGlobals lib d = .scalar .nil := by
  have hne : d ≠ "AddMetaData".data := by
    intro e
    subst e
    revert hd
    decide
  simp [sandboxGlobals, hne, hd]

/-- C6, as the code has it: while the manifest runs, each name of the deny list
reads as the metadata closure of `__index`, never as the library. A body that
calls the name with a string returns a manifest with the string recorded under
that name; a body whose first statement calls a member of the name fails with
the run-time error of indexing a function. -/
theorem C6_denied_name_is_metadata (w : World) (resourceRoot d : GoString)
    (hd : d ∈ unsafeLibraries) :
    getGlobal (sandboxGlobals w.luaLibrary) d = .function (.field d) ∧
    (∀ s : GoString,
      w.luaLoadFile (filepath.Join [resourceRoot, "__resource.lua".data]) =
          .ok [.call (.global d) (.const (.scalar (.string s)))] →
        openManifest w resourceRoot = .ok ⟨[(d, [s])]⟩) ∧
    (∀ (name : GoString) (arg : LuaExpr) (rest : LuaChunk),
      w.luaLoadFile (filepath.Join [resourceRoot, "__resource.lua".data]) =
          .ok (.call (.index (.global d) name) arg :: rest) →
        openManifest w resourceRoot = .error (.lua "attempt to index a function value")) := by
  have hg := getGlobal_undefined _ d (sandboxGlobals_denied w.luaLibrary d hd)
  refine ⟨hg, ?_, ?_⟩
  · intro s hload
    simp only [openManifest, hload, runChunk, LuaExpr.eval, hg, callValue, fieldCall]
    rfl
  · intro name arg rest hload
    simp only [openManifest, hload, runChunk, LuaExpr.eval, hg, indexValue]
    rfl

/-- C6 on the manifests `dofile "evil.lua"` and `os.execute "id"`. -/
theorem C6_denied_name_is_metadata_witness :
    "dofile".data ∈ unsafeLibraries ∧ "os".data ∈ unsafeLibraries ∧
      openManifest manifestWorld "evil".data =
        .ok ⟨[("dofile".data, ["evil.lua".data])]⟩ ∧
      openManifest manifestWorld "shell".data =
        .error (.lua "attempt to index a function value") :=
  ⟨by decide, by decide,
    (C6_denied_name_is_metadata manifestWorld "evil".data "dofile".data (by decide)).2.1
      "evil.lua".data rfl,
    (C6_denied_name_is_metadata manifestWorld "shell".data "os".data (by decide)).2.2
      "execute".data (.const (.scalar (.string "id".data))) [] rfl⟩

/-- C6 fails on the manifest `dofile "evil.lua"`: `openManifest` returns a
manifest, with the file name recorded under the key `dofile`, and no error. -/
theorem C6_counterexample_dofile :
    standardLibrary.global "dofile".data = .function (.library "dofile".data) ∧
      manifestWorld.luaLoadFile (filepath.Join ["evil".data, "__resource.lua".data]) =
        .ok [.call (.global "dofile".data) (.const (.scalar (.string "evil.lua".data)))] ∧
      openManifest manifestWorld "evil".data = .ok ⟨[("dofile".data, ["evil.lua".data])]⟩ ∧
      ¬ ∃ err : GoError, openManifest manifestWorld "evil".data = .error err :=
  ⟨rfl, rfl, rfl, fun ⟨_, h⟩ => by
    have h2 : openManifest manifestWorld "evil".data =
        .ok ⟨[("dofile".data, ["evil.lua".data])]⟩ := rfl
    rw [h2] at h
    cases h⟩

/-! ## The resolver -/

theorem mapSet_foldl_mem (values : List GoString) :
    ∀ keys : List GoString, ∀ d : GoString,
      d ∈ values.foldl mapSet keys ↔ d ∈ keys ∨ d ∈ values := by
  induction values with
  | nil => intro keys d; simp
  | cons v rest ih =>
    intro keys d
    rw [List.foldl_cons, ih]
    unfold mapSet
    by_cases hv : v ∈ keys
    · rw [if_pos hv]
      constructor
      · rintro (h | h)
        · exact Or.inl h
        · exact Or.inr (List.mem_cons_of_mem _ h)
      · rintro (h | h)
        · exact Or.inl h
        · rcases List.mem_cons.1 h with e | e
          · exact Or.inl (e ▸ hv)
          · exact Or.inr e
    · rw [if_neg hv]
      simp only [List.mem_append, List.mem_singleton, List.mem_cons]
      tauto

theorem mapSet_foldl_nodup (values : List GoString) :
    ∀ keys : List GoString, keys.Nodup → (values.foldl mapSet keys).Nodup := by
  induction values with
  | nil => intro keys h; simpa using h
  | cons v rest ih =>
    intro keys h
    rw [List.foldl_cons]
    apply ih
    unfold mapSet
    by_cases hv : v ∈ keys
    · rw [if_pos hv]; exact h
    · rw [if_neg hv]
      rw [List.nodup_append]
      refine ⟨h, List.nodup_singleton v, ?_⟩
      intro x hx hx2
      rw [List.mem_singleton] at hx2
      exact hv (hx2 ▸ hx)

theorem dependencies_foldl_mem (resourceList : List Resource) :
    ∀ keys : List GoString, ∀ d : GoString,
      d ∈ resourceList.foldl
          (fun keys resource =>
            (resource.Manifest.GetAll "dependency_url".data).foldl mapSet keys) keys ↔
        d ∈ keys ∨ ∃ r ∈ resourceList, d ∈ r.Manifest.GetAll "dependency_url".data := by
  induction resourceList with
  | nil => intro keys d; simp
  | cons r rest ih =>
    intro keys d
    rw [List.foldl_cons, ih, mapSet_foldl_mem]
    simp only [List.mem_cons, exists_eq_or_imp]
    tauto

theorem dependencies_foldl_nodup (resourceList : List Resource) :
    ∀ keys : List GoString, keys.Nodup →
      (resourceList.foldl
        (fun keys resource =>
          (resource.Manifest.GetAll "dependency_url".data).foldl mapSet keys) keys).Nodup := by
  induction resourceList with
  | nil => intro keys h; simpa using h
  | cons r rest ih =>
    intro keys h
    rw [List.foldl_cons]
    exact ih _ (mapSet_foldl_nodup _ _ h)

/-- The keys of the map `dependencies` are the declared values. -/
theorem addPackage.mem_dependencies (resourceList : List Resource) (d : GoString) :
    d ∈ addPackage.dependencies resourceList ↔
      ∃ r ∈ resourceList, d ∈ r.Manifest.GetAll "dependency_url".data := by
  unfold addPackage.dependencies
  rw [dependencies_foldl_mem]
  simp

/-- A key of the map `dependencies` occurs once. -/
theorem addPackage.dependencies_nodup (resourceList : List Resource) :
    (addPackage.dependencies resourceList).Nodup :=
  dependencies_foldl_nodup resourceList [] List.nodup_nil

/-- A loop over the dependencies that returns a list has called the recursion
on every dependency of the order, each call has returned a list, the trace is
the traces of the calls in order, and the result is the returned lists, the
last one first, in front of the list the loop started with. -/
theorem addPackage.fetchDependencies_ok (resolve : GoString → Option AddPackageResult)
    (deps : List GoString) :
    ∀ (trace : List Event) (resourceList : List Resource) (tr : List Event)
      (result : List Resource),
      addPackage.fetchDependencies resolve deps trace resourceList = some (tr, .ok result) →
        ∃ subs : List (List Event × List Resource),
          List.Forall₂ (fun d s => resolve d = some (s.1, .ok s.2)) deps subs ∧
          tr = trace ++ (subs.map (fun s => s.1)).flatten ∧
          result = (subs.map (fun s => s.2)).reverse.flatten ++ resourceList := by
  induction deps with
  | nil =>
    intro trace resourceList tr result h
    simp only [addPackage.fetchDependencies, Option.some.injEq, Prod.mk.injEq,
      Except.ok.injEq] at h
    exact ⟨[], List.Forall₂.nil, by simp [h.1], by simp [h.2]⟩
  | cons d rest ih =>
    intro trace resourceList tr result h
    rw [addPackage.fetchDependencies] at h
    cases hr : resolve d with
    | none => rw [hr] at h; cases h
    | some res =>
      obtain ⟨t1, out⟩ := res
      cases out with
      | error err => rw [hr] at h; simp at h
      | ok localList =>
        rw [hr] at h
        simp only [] at h
        obtain ⟨subs, hsubs, htr, hres⟩ := ih _ _ _ _ h
        refine ⟨(t1, localList) :: subs, List.Forall₂.cons hr hsubs, ?_, ?_⟩
        · simp [htr, List.append_assoc]
        · simp [hres, List.append_assoc]

theorem addPackage_succ (w : World) (fuel : Nat) (packageURI : GoString) (force : Bool) :
    addPackage w (fuel + 1) packageURI force =
      match (addPackage.fetch w packageURI (addPackage.outRoot w packageURI) force).2 with
      | some err =>
        some ((addPackage.fetch w packageURI (addPackage.outRoot w packageURI) force).1,
          .error err)
      | none =>
        addPackage.fetchDependencies (fun dep => addPackage w fuel dep force)
          (w.rangeOrder (addPackage.dependencies (ownResources w packageURI)))
          ((addPackage.fetch w packageURI (addPackage.outRoot w packageURI) force).1 ++
            [.filepathWalk (addPackage.outRoot w packageURI)])
          (ownResources w packageURI) := rfl

/-- A call of `addPackage` that returns a list: the fetch has succeeded, every
dependency of the iteration order has been resolved by one recursive call that
returned a list, and trace and result are composed of those of the calls. -/
theorem addPackage_ok (w : World) (fuel : Nat) (packageURI : GoString) (force : Bool)
    (tr : List Event) (result : List Resource)
    (h : addPackage w (fuel + 1) packageURI force = some (tr, .ok result)) :
    fetchSucceeds w force packageURI ∧
    ∃ subs : List (List Event × List Resource),
      List.Forall₂ (fun d s => addPackage w fuel d force = some (s.1, .ok s.2))
        (w.rangeOrder (addPackage.dependencies (ownResources w packageURI))) subs ∧
      tr = (addPackage.fetch w packageURI (addPackage.outRoot w packageURI) force).1 ++
          [.filepathWalk (addPackage.outRoot w packageURI)] ++
          (subs.map (fun s => s.1)).flatten ∧
      result = (subs.map (fun s => s.2)).reverse.flatten ++ ownResources w packageURI := by
  rw [addPackage_succ] at h
  cases hf : (addPackage.fetch w packageURI (addPackage.outRoot w packageURI) force).2 with
  | some err => rw [hf] at h; simp at h
  | none =>
    rw [hf] at h
    simp only [] at h
    exact ⟨hf, addPackage.fetchDependencies_ok _ _ _ _ _ _ h⟩

/-- A loop over the dependencies that returns an error has called the recursion
on the dependencies of the order up to one of them, once each: the calls before
it have returned lists, the call on it has returned the error, and the
dependencies after it have not been resolved. -/
theorem addPackage.fetchDependencies_error (resolve : GoString → Option AddPackageResult)
    (deps : List GoString) :
    ∀ (trace : List Event) (resourceList : List Resource) (tr : List Event) (err : GoError),
      addPackage.fetchDependencies resolve deps trace resourceList = some (tr, .error err) →
        ∃ (done : List GoString) (d : GoString) (rest : List GoString)
          (subs : List (List Event × List Resource)) (t : List Event),
          deps = done ++ d :: rest ∧
          List.Forall₂ (fun x s => resolve x = some (s.1, .ok s.2)) done subs ∧
          resolve d = some (t, .error err) ∧
          tr = trace ++ (subs.map (fun s => s.1)).flatten ++ t := by
  induction deps with
  | nil =>
    intro trace resourceList tr err h
    simp [addPackage.fetchDependencies] at h
  | cons d0 rest0 ih =>
    intro trace resourceList tr err h
    rw [addPackage.fetchDependencies] at h
    cases hr : resolve d0 with
    | none => rw [hr] at h; cases h
    | some res =>
      obtain ⟨t1, out⟩ := res
      cases out with
      | error e =>
        rw [hr] at h
        simp only [Option.some.injEq, Prod.mk.injEq, Except.error.injEq] at h
        obtain ⟨htr, he⟩ := h
        subst he
        exact ⟨[], d0, rest0, [], t1, by simp, List.Forall₂.nil, hr, by simp [htr]⟩
      | ok localList =>
        rw [hr] at h
        simp only [] at h
        obtain ⟨done, d, rest, subs, t, hdeps, hsubs, hd, htr⟩ := ih _ _ _ _ h
        refine ⟨d0 :: done, d, rest, (t1, localList) :: subs, t, ?_,
          List.Forall₂.cons hr hsubs, hd, ?_⟩
        · simp [hdeps]
        · simp [htr, List.append_assoc]

/-- A call of `addPackage` that returns an error: either the fetch of the
repository has failed and no recursive call has been made, or the loop over the
dependencies has stopped at the first dependency whose resolution failed. -/
theorem addPackage_error (w : World) (fuel : Nat) (packageURI : GoString) (force : Bool)
    (tr : List Event) (err : GoError)
    (h : addPackage w (fuel + 1) packageURI force = some (tr, .error err)) :
    ((addPackage.fetch w packageURI (addPackage.outRoot w packageURI) force).2 = some err ∧
      tr = (addPackage.fetch w packageURI (addPackage.outRoot w packageURI) force).1) ∨
    ((addPackage.fetch w packageURI (addPackage.outRoot w packageURI) force).2 = none ∧
      ∃ (done : List GoString) (d : GoString) (rest : List GoString)
        (subs : List (List Event × List Resource)) (t : List Event),
        w.rangeOrder (addPackage.dependencies (ownResources w packageURI)) =
          done ++ d :: rest ∧
        List.Forall₂ (fun x s => addPackage w fuel x force = some (s.1, .ok s.2)) done subs ∧
        addPackage w fuel d force = some (t, .error err) ∧
        tr = (addPackage.fetch w packageURI (addPackage.outRoot w packageURI) force).1 ++
            [.filepathWalk (addPackage.outRoot w packageURI)] ++
            (subs.map (fun s => s.1)).flatten ++ t) := by
  rw [addPackage_succ] at h
  cases hf : (addPackage.fetch w packageURI (addPackage.outRoot w packageURI) force).2 with
  | some e =>
    rw [hf] at h
    simp only [Option.some.injEq, Prod.mk.injEq, Except.error.injEq] at h
    obtain ⟨htr, he⟩ := h
    subst he
    exact Or.inl ⟨rfl, htr.symm⟩
  | none =>
    rw [hf] at h
    simp only [] at h
    exact Or.inr ⟨rfl, addPackage.fetchDependencies_error _ _ _ _ _ _ h⟩

/-! ## Fuel -/

theorem addPackage.fetchDependencies_mono (resolve resolve2 : GoString → Option AddPackageResult)
    (hmono : ∀ d r, resolve d = some r → resolve2 d = some r) (deps : List GoString) :
    ∀ (trace : List Event) (resourceList : List Resource) (r : AddPackageResult),
      addPackage.fetchDependencies resolve deps trace resourceList = some r →
        addPackage.fetchDependencies resolve2 deps trace resourceList = some r := by
  induction deps with
  | nil => intro trace resourceList r h; exact h
  | cons d rest ih =>
    intro trace resourceList r h
    rw [addPackage.fetchDependencies] at h ⊢
    cases hr : resolve d with
    | none => rw [hr] at h; cases h
    | some res =>
      rw [hr] at h
      rw [hmono d res hr]
      obtain ⟨t1, out⟩ := res
      cases out with
      | error err => exact h
      | ok localList => exact ih _ _ r h

/-- A call that returns within some fuel returns the same with more fuel: the
result of `addPackage` does not depend on the bound. -/
theorem addPackage_fuel_mono (w : World) (force : Bool) :
    ∀ (fuel : Nat) (ref : GoString) (r : AddPackageResult),
      addPackage w fuel ref force = some r → addPackage w (fuel + 1) ref force = some r := by
  intro fuel
  induction fuel with
  | zero => intro ref r h; simp [addPackage] at h
  | succ n ih =>
    intro ref r h
    rw [addPackage_succ] at h ⊢
    cases hf : (addPackage.fetch w ref (addPackage.outRoot w ref) force).2 with
    | some err => rw [hf] at h; exact h
    | none =>
      rw [hf] at h
      exact addPackage.fetchDependencies_mono _ _ (fun d r hd => ih d r hd) _ _ _ r h

/-- C2: the list a successful `addPackage` returns ends with the resources
discovered in the repository itself, in discovery order, and what stands before
them is made of the lists returned by the recursive resolutions of its
dependency references, so that every resource of a dependency precedes the
resources of the repository. -/
theorem C2_dependencies_before_own (w : World) (fuel : Nat) (packageURI : GoString)
    (force : Bool) (tr : List Event) (result : List Resource)
    (h : addPackage w (fuel + 1) packageURI force = some (tr, .ok result)) :
    ∃ lists : List (List Resource),
      List.Forall₂ (fun dep l => ∃ t, addPackage w fuel dep force = some (t, .ok l))
        (w.rangeOrder (addPackage.dependencies (ownResources w packageURI))) lists ∧
      result = lists.reverse.flatten ++ gatherResources w (addPackage.outRoot w packageURI) := by
  obtain ⟨_, subs, hsubs, _, hres⟩ := addPackage_ok w fuel packageURI force tr result h
  refine ⟨subs.map (fun s => s.2), ?_, hres⟩
  rw [List.forall₂_map_right_iff]
  exact hsubs.imp (fun _ _ h => ⟨_, h⟩)

/-- C2 on the end-to-end scenario: `pack` holds `foo` and `bar`, its only
dependency resolves to `baz`, and the result is `baz`, `foo`, `bar`. -/
theorem C2_dependencies_before_own_witness :
    addPackage packWorld 2 packURI false =
        some (packTrace, .ok [bazResource, fooResource, barResource]) ∧
      gatherResources packWorld (addPackage.outRoot packWorld packURI) =
        [fooResource, barResource] ∧
      ∃ lists : List (List Resource),
        List.Forall₂ (fun dep l => ∃ t, addPackage packWorld 1 dep false = some (t, .ok l))
          (packWorld.rangeOrder (addPackage.dependencies (ownResources packWorld packURI)))
          lists ∧
        [bazResource, fooResource, barResource] =
          lists.reverse.flatten ++ gatherResources packWorld (addPackage.outRoot packWorld packURI) :=
  ⟨rfl, rfl,
    C2_dependencies_before_own packWorld 1 packURI false packTrace
      [bazResource, fooResource, barResource] rfl⟩

/-- C4, as the code has it: the dependency set of a call of `addPackage` holds
each `dependency_url` value declared by a manifest of the repository once and
nothing else, and the loop visits each member of the set once. In a call that
returns a list, one recursive call has been made for every member (the trace
after the discovery is the traces of these calls, one after the other) and the
result holds the list of each call once. In a call that returns an error, no
recursive call has been made when the fetch of the repository itself failed;
otherwise one recursive call has been made for each member up to the first one
whose resolution failed, whose error is returned, and none for the members
after it. -/
theorem C4_each_dependency_once (w : World) (fuel : Nat) (packageURI : GoString)
    (force : Bool) (tr : List Event) (out : Except GoError (List Resource))
    (h : addPackage w (fuel + 1) packageURI force = some (tr, out)) :
    (addPackage.dependencies (ownResources w packageURI)).Nodup ∧
    (∀ d : GoString, d ∈ addPackage.dependencies (ownResources w packageURI) ↔
      ∃ r ∈ ownResources w packageURI, d ∈ r.Manifest.GetAll "dependency_url".data) ∧
    (w.rangeOrder (addPackage.dependencies (ownResources w packageURI))).Perm
      (addPackage.dependencies (ownResources w packageURI)) ∧
    (∀ result : List Resource, out = .ok result →
      ∃ subs : List (List Event × List Resource),
        List.Forall₂ (fun d s => addPackage w fuel d force = some (s.1, .ok s.2))
          (w.rangeOrder (addPackage.dependencies (ownResources w packageURI))) subs ∧
        tr = (addPackage.fetch w packageURI (addPackage.outRoot w packageURI) force).1 ++
            [.filepathWalk (addPackage.outRoot w packageURI)] ++
            (subs.map (fun s => s.1)).flatten ∧
        result = (subs.map (fun s => s.2)).reverse.flatten ++ ownResources w packageURI) ∧
    (∀ err : GoError, out = .error err →
      ((addPackage.fetch w packageURI (addPackage.outRoot w packageURI) force).2 = some err ∧
        tr = (addPackage.fetch w packageURI (addPackage.outRoot w packageURI) force).1) ∨
      ((addPackage.fetch w packageURI (addPackage.outRoot w packageURI) force).2 = none ∧
        ∃ (done : List GoString) (d : GoString) (rest : List GoString)
          (subs : List (List Event × List Resource)) (t : List Event),
          w.rangeOrder (addPackage.dependencies (ownResources w packageURI)) =
            done ++ d :: rest ∧
          List.Forall₂ (fun x s => addPackage w fuel x force = some (s.1, .ok s.2)) done subs ∧
          addPackage w fuel d force = some (t, .error err) ∧
          tr = (addPackage.fetch w packageURI (addPackage.outRoot w packageURI) force).1 ++
              [.filepathWalk (addPackage.outRoot w packageURI)] ++
              (subs.map (fun s => s.1)).flatten ++ t)) := by
  refine ⟨addPackage.dependencies_nodup _, addPackage.mem_dependencies _,
    w.rangeOrder_perm _, ?_, ?_⟩
  · intro result hout
    subst hout
    exact (addPackage_ok w fuel packageURI force tr result h).2
  · intro err hout
    subst hout
    exact addPackage_error w fuel packageURI force tr err h

/-- C4 on a repository that declares the same dependency three times: the
dependency is resolved once and its resource `baz` is in the result once. -/
theorem C4_each_dependency_once_witness :
    addPackage twiceWorld 2 twiceURI false =
        some (twiceTrace, .ok [bazResource, oneResource, twoResource]) ∧
      addPackage.dependencies (ownResources twiceWorld twiceURI) =
        ["https://example.test/dep.git".data] ∧
      ∃ subs : List (List Event × List Resource),
        List.Forall₂ (fun d s => addPackage twiceWorld 1 d false = some (s.1, .ok s.2))
          (twiceWorld.rangeOrder (addPackage.dependencies (ownResources twiceWorld twiceURI)))
          subs ∧
        twiceTrace =
          (addPackage.fetch twiceWorld twiceURI (addPackage.outRoot twiceWorld twiceURI) false).1 ++
            [.filepathWalk (addPackage.outRoot twiceWorld twiceURI)] ++
            (subs.map (fun s => s.1)).flatten ∧
        [bazResource, oneResource, twoResource] =
          (subs.map (fun s => s.2)).reverse.flatten ++ ownResources twiceWorld twiceURI :=
  ⟨rfl, rfl,
    (C4_each_dependency_once twiceWorld 1 twiceURI false twiceTrace
      (.ok [bazResource, oneResource, twoResource]) rfl).2.2.2.1
      [bazResource, oneResource, twoResource] rfl⟩

/-- C4 fails on a call that returns an error: the repository `needs` declares
`gone` and `dep`, the clone of `gone` fails, the call returns that error, and
the resolution of the declared `dep` has not been invoked (no call on its local
path is in the trace). -/
theorem C4_counterexample_failed_dependency :
    addPackage.dependencies (ownResources failWorld needsURI) =
        ["https://example.test/gone.git".data, "https://example.test/dep.git".data] ∧
      addPackage failWorld 2 needsURI false =
        some ([.osStat "resources/[needs]".data,
          .gitPlainClone "resources/[needs]".data "https://example.test/needs.git".data,
          .filepathWalk "resources/[needs]".data,
          .osStat "resources/[gone]".data,
          .gitPlainClone "resources/[gone]".data "https://example.test/gone.git".data],
          .error (.external 128)) ∧
      addPackage.outRoot failWorld "https://example.test/dep.git".data =
        "resources/[dep]".data ∧
      Event.osStat "resources/[dep]".data ∉
        [Event.osStat "resources/[needs]".data,
          .gitPlainClone "resources/[needs]".data "https://example.test/needs.git".data,
          .filepathWalk "resources/[needs]".data,
          .osStat "resources/[gone]".data,
          .gitPlainClone "resources/[gone]".data "https://example.test/gone.git".data] ∧
      ∀ fuel : Nat, ∀ (tr : List Event) (result : List Resource),
        addPackage failWorld (fuel + 2) needsURI false ≠ some (tr, .ok result) := by
  refine ⟨rfl, rfl, rfl, by decide, ?_⟩
  intro fuel tr result h
  have h2 : addPackage failWorld 2 needsURI false =
      some ([.osStat "resources/[needs]".data,
        .gitPlainClone "resources/[needs]".data "https://example.test/needs.git".data,
        .filepathWalk "resources/[needs]".data,
        .osStat "resources/[gone]".data,
        .gitPlainClone "resources/[gone]".data "https://example.test/gone.git".data],
        .error (.external 128)) := rfl
  have hmono : ∀ n : Nat, addPackage failWorld (n + 2) needsURI false =
      some ([.osStat "resources/[needs]".data,
        .gitPlainClone "resources/[needs]".data "https://example.test/needs.git".data,
        .filepathWalk "resources/[needs]".data,
        .osStat "resources/[gone]".data,
        .gitPlainClone "resources/[gone]".data "https://example.test/gone.git".data],
        .error (.external 128)) := by
    intro n
    induction n with
    | zero => exact h2
    | succ k ih => exact addPackage_fuel_mono failWorld false (k + 2) needsURI _ ih
  rw [hmono fuel] at h
  simp at h

/-! ## Dirty working tree -/

/-- When the local path of a reference exists and its working tree has
uncommitted modifications, then without force `fetchRepo` returns the
dirty-repository error and has not pulled, `addPackage` returns that error with
no list after the status query (no pull, no discovery, no recursive call), and
`cmdAdd` returns it without reading or writing the registry file; with force
`fetchRepo` goes on to pull and returns what the pull reports, and when the
pull reports no error `addPackage` goes on to discovery and to the loop over the
dependencies. -/
theorem addPackage_dirty_tree (w : World) (fuel : Nat) (packageURI configFile : GoString)
    (fs : FileSystem)
    (hexists : w.osStat (addPackage.outRoot w packageURI) = .directory)
    (hopen : w.gitPlainOpen (addPackage.outRoot w packageURI) = none)
    (hworktree : w.gitWorktree (addPackage.outRoot w packageURI) = none)
    (hdirty : w.gitStatus (addPackage.outRoot w packageURI) = .ok false)
    (hargument : (strings.TrimSpace packageURI).length ≠ 0) :
    fetchRepo w (addPackage.outRoot w packageURI) false =
        ([.gitPlainOpen (addPackage.outRoot w packageURI),
          .gitWorktree (addPackage.outRoot w packageURI),
          .gitStatus (addPackage.outRoot w packageURI)], some dirtyError) ∧
    addPackage w (fuel + 1) packageURI false =
        some ([.osStat (addPackage.outRoot w packageURI),
          .gitPlainOpen (addPackage.outRoot w packageURI),
          .gitWorktree (addPackage.outRoot w packageURI),
          .gitStatus (addPackage.outRoot w packageURI)], .error dirtyError) ∧
    cmdAdd w (fuel + 1) ⟨packageURI, false, configFile⟩ fs =
        some ([.osStat (addPackage.outRoot w packageURI),
          .gitPlainOpen (addPackage.outRoot w packageURI),
          .gitWorktree (addPackage.outRoot w packageURI),
          .gitStatus (addPackage.outRoot w packageURI)], some dirtyError, fs) ∧
    fetchRepo w (addPackage.outRoot w packageURI) true =
        ([.gitPlainOpen (addPackage.outRoot w packageURI),
          .gitWorktree (addPackage.outRoot w packageURI),
          .gitStatus (addPackage.outRoot w packageURI),
          .gitPull (addPackage.outRoot w packageURI)],
          if w.gitPull (addPackage.outRoot w packageURI) = some .gitNoErrAlreadyUpToDate then none
          else w.gitPull (addPackage.outRoot w packageURI)) ∧
    ((w.gitPull (addPackage.outRoot w packageURI) = none ∨
        w.gitPull (addPackage.outRoot w packageURI) = some .gitNoErrAlreadyUpToDate) →
      addPackage w (fuel + 1) packageURI true =
        addPackage.fetchDependencies (fun dep => addPackage w fuel dep true)
          (w.rangeOrder (addPackage.dependencies
            (gatherResources w (addPackage.outRoot w packageURI))))
          [.osStat (addPackage.outRoot w packageURI),
            .gitPlainOpen (addPackage.outRoot w packageURI),
            .gitWorktree (addPackage.outRoot w packageURI),
            .gitStatus (addPackage.outRoot w packageURI),
            .gitPull (addPackage.outRoot w packageURI),
            .filepathWalk (addPackage.outRoot w packageURI)]
          (gatherResources w (addPackage.outRoot w packageURI))) := by
  have hfetchRepo : fetchRepo w (addPackage.outRoot w packageURI) false =
      ([.gitPlainOpen (addPackage.outRoot w packageURI),
        .gitWorktree (addPackage.outRoot w packageURI),
        .gitStatus (addPackage.outRoot w packageURI)], some dirtyError) := by
    simp [fetchRepo, hopen, hworktree, hdirty, dirtyError]
  have hforce : fetchRepo w (addPackage.outRoot w packageURI) true =
      ([.gitPlainOpen (addPackage.outRoot w packageURI),
        .gitWorktree (addPackage.outRoot w packageURI),
        .gitStatus (addPackage.outRoot w packageURI),
        .gitPull (addPackage.outRoot w packageURI)],
        if w.gitPull (addPackage.outRoot w packageURI) = some .gitNoErrAlreadyUpToDate then none
        else w.gitPull (addPackage.outRoot w packageURI)) := by
    simp only [fetchRepo, hopen, hworktree, hdirty]
    cases hp : w.gitPull (addPackage.outRoot w packageURI) with
    | none => simp
    | some err =>
      by_cases he : err = .gitNoErrAlreadyUpToDate
      · simp [he]
      · simp [he]
  have hdir : dirExists w (addPackage.outRoot w packageURI) = (true, none) := by
    simp [dirExists, hexists]
  have hadd : addPackage w (fuel + 1) packageURI false =
      some ([.osStat (addPackage.outRoot w packageURI),
        .gitPlainOpen (addPackage.outRoot w packageURI),
        .gitWorktree (addPackage.outRoot w packageURI),
        .gitStatus (addPackage.outRoot w packageURI)], .error dirtyError) := by
    rw [addPackage_succ]
    simp [addPackage.fetch, hdir, hfetchRepo]
  refine ⟨hfetchRepo, hadd, ?_, hforce, ?_⟩
  · simp only [cmdAdd, if_neg hargument, hadd]
  · intro hpull
    have hnone : (if w.gitPull (addPackage.outRoot w packageURI) =
        some .gitNoErrAlreadyUpToDate then none
        else w.gitPull (addPackage.outRoot w packageURI)) = none := by
      rcases hpull with h | h
      · simp [h]
      · simp [h]
    rw [addPackage_succ]
    simp only [addPackage.fetch, hdir, hforce, hnone, if_true, ownResources]
    rfl

/-- A dirty local copy of `pack` whose pull has nothing to fetch: refused
without force, pulled and discovered with force. -/
theorem addPackage_dirty_tree_example :
    dirtyWorld.osStat (addPackage.outRoot dirtyWorld packURI) = .directory ∧
      dirtyWorld.gitStatus (addPackage.outRoot dirtyWorld packURI) = .ok false ∧
      cmdAdd dirtyWorld 1 ⟨packURI, false, "resources.cfg".data⟩ noFiles =
        some ([.osStat "resources/[pack]".data, .gitPlainOpen "resources/[pack]".data,
          .gitWorktree "resources/[pack]".data, .gitStatus "resources/[pack]".data],
          some dirtyError, noFiles) ∧
      addPackage dirtyWorld 1 packURI true =
        some ([.osStat "resources/[pack]".data, .gitPlainOpen "resources/[pack]".data,
          .gitWorktree "resources/[pack]".data, .gitStatus "resources/[pack]".data,
          .gitPull "resources/[pack]".data, .filepathWalk "resources/[pack]".data],
          .ok [fooResource]) :=
  ⟨rfl, rfl,
    (addPackage_dirty_tree dirtyWorld 0 packURI "resources.cfg".data noFiles rfl rfl rfl rfl
      (by decide)).2.2.1,
    ((addPackage_dirty_tree dirtyWorld 0 packURI "resources.cfg".data noFiles rfl rfl rfl rfl
      (by decide)).2.2.2.2 (Or.inr rfl)).trans rfl⟩

/-- C8 at a dirty local copy of `pack` with a new commit on the remote: without
force the dirty-repository error is returned before any pull, as stated; with
force the pull is made without a force option, go-git refuses it because of the
local modifications, and `fetchRepo`, `addPackage` and `cmdAdd` return that
error: no discovery runs and the registry file is not written. -/
theorem C8_force_on_dirty_tree_fails :
    staleDirtyWorld.osStat (addPackage.outRoot staleDirtyWorld packURI) = .directory ∧
      staleDirtyWorld.gitStatus (addPackage.outRoot staleDirtyWorld packURI) = .ok false ∧
      addPackage staleDirtyWorld 1 packURI false =
        some ([.osStat "resources/[pack]".data, .gitPlainOpen "resources/[pack]".data,
          .gitWorktree "resources/[pack]".data, .gitStatus "resources/[pack]".data],
          .error dirtyError) ∧
      fetchRepo staleDirtyWorld "resources/[pack]".data true =
        ([.gitPlainOpen "resources/[pack]".data, .gitWorktree "resources/[pack]".data,
          .gitStatus "resources/[pack]".data, .gitPull "resources/[pack]".data],
          some unstagedChangesError) ∧
      addPackage staleDirtyWorld 1 packURI true =
        some ([.osStat "resources/[pack]".data, .gitPlainOpen "resources/[pack]".data,
          .gitWorktree "resources/[pack]".data, .gitStatus "resources/[pack]".data,
          .gitPull "resources/[pack]".data], .error unstagedChangesError) ∧
      Event.filepathWalk "resources/[pack]".data ∉
        [Event.osStat "resources/[pack]".data, .gitPlainOpen "resources/[pack]".data,
          .gitWorktree "resources/[pack]".data, .gitStatus "resources/[pack]".data,
          .gitPull "resources/[pack]".data] ∧
      cmdAdd staleDirtyWorld 1 ⟨packURI, true, "resources.cfg".data⟩ noFiles =
        some ([.osStat "resources/[pack]".data, .gitPlainOpen "resources/[pack]".data,
          .gitWorktree "resources/[pack]".data, .gitStatus "resources/[pack]".data,
          .gitPull "resources/[pack]".data], some unstagedChangesError, noFiles) :=
  ⟨rfl, rfl, rfl, rfl, rfl, by decide, rfl⟩

/-! ## Cycles -/

/-- A loop over the dependencies returns no error when no recursive call does. -/
theorem addPackage.fetchDependencies_no_error (resolve : GoString → Option AddPackageResult)
    (deps : List GoString)
    (hno : ∀ d ∈ deps, ∀ (t : List Event) (e : GoError), resolve d ≠ some (t, .error e)) :
    ∀ (trace : List Event) (resourceList : List Resource) (t : List Event) (e : GoError),
      addPackage.fetchDependencies resolve deps trace resourceList ≠ some (t, .error e) := by
  induction deps with
  | nil =>
    intro trace resourceList t e h
    simp [addPackage.fetchDependencies] at h
  | cons d rest ih =>
    intro trace resourceList t e h
    rw [addPackage.fetchDependencies] at h
    cases hr : resolve d with
    | none => rw [hr] at h; cases h
    | some res =>
      obtain ⟨t1, out⟩ := res
      cases out with
      | error err => exact hno d (by simp) t1 err hr
      | ok localList =>
        rw [hr] at h
        exact ih (fun x hx => hno x (by simp [hx])) _ _ t e h

/-- A loop over the dependencies does not return when no recursive call returns
an error and one of them does not return. -/
theorem addPackage.fetchDependencies_none (resolve : GoString → Option AddPackageResult)
    (deps : List GoString)
    (hno : ∀ d ∈ deps, ∀ (t : List Event) (e : GoError), resolve d ≠ some (t, .error e))
    (hnone : ∃ d ∈ deps, resolve d = none) :
    ∀ (trace : List Event) (resourceList : List Resource),
      addPackage.fetchDependencies resolve deps trace resourceList = none := by
  induction deps with
  | nil => obtain ⟨d, hd, _⟩ := hnone; simp at hd
  | cons d rest ih =>
    intro trace resourceList
    rw [addPackage.fetchDependencies]
    cases hr : resolve d with
    | none => rfl
    | some res =>
      obtain ⟨t1, out⟩ := res
      cases out with
      | error err => exact absurd hr (hno d (by simp) t1 err)
      | ok localList =>
        simp only []
        apply ih (fun x hx => hno x (by simp [hx]))
        obtain ⟨x, hx, hxn⟩ := hnone
        rcases List.mem_cons.1 hx with e | e
        · subst e
          rw [hr] at hxn
          cases hxn
        · exact ⟨x, e, hxn⟩

theorem mem_rangeOrder_iff (w : World) (ref d : GoString) :
    d ∈ w.rangeOrder (addPackage.dependencies (ownResources w ref)) ↔ dependsOn w ref d := by
  rw [(w.rangeOrder_perm _).mem_iff, addPackage.mem_dependencies]
  rfl

/-- When every fetch of a reference reachable from `ref` succeeds, no call of
`addPackage` on such a reference returns an error. -/
theorem addPackage_no_error (w : World) (force : Bool) (ref : GoString)
    (hfetch : ∀ v, Relation.ReflTransGen (dependsOn w) ref v → fetchSucceeds w force v) :
    ∀ (fuel : Nat) (v : GoString), Relation.ReflTransGen (dependsOn w) ref v →
      ∀ (t : List Event) (e : GoError), addPackage w fuel v force ≠ some (t, .error e) := by
  intro fuel
  induction fuel with
  | zero => intro v _ t e h; simp [addPackage] at h
  | succ n ih =>
    intro v hv t e h
    rw [addPackage_succ] at h
    have hf := hfetch v hv
    unfold fetchSucceeds at hf
    rw [hf] at h
    simp only [] at h
    refine addPackage.fetchDependencies_no_error _ _ ?_ _ _ t e h
    intro d hd
    exact ih d (hv.tail ((mem_rangeOrder_iff w v d).1 hd))

/-- C10: for a reference that depends on itself, directly or through a chain of
`dependency_url` declarations, when the fetch of every reference reachable from
it succeeds, `addPackage` returns neither a list nor an error however much fuel
the recursion is given. -/
theorem C10_cycle_never_returns (w : World) (force : Bool) (ref : GoString)
    (hcycle : Relation.TransGen (dependsOn w) ref ref)
    (hfetch : ∀ v, Relation.ReflTransGen (dependsOn w) ref v → fetchSucceeds w force v) :
    ∀ fuel : Nat, addPackage w fuel ref force = none := by
  have key : ∀ (fuel : Nat) (v : GoString), Relation.ReflTransGen (dependsOn w) ref v →
      Relation.TransGen (dependsOn w) v v → addPackage w fuel v force = none := by
    intro fuel
    induction fuel with
    | zero => intro v _ _; rfl
    | succ n ih =>
      intro v hv hvv
      obtain ⟨d, hvd, hdv⟩ := Relation.TransGen.head'_iff.1 hvv
      have hd : Relation.ReflTransGen (dependsOn w) ref d := hv.tail hvd
      have hdd : Relation.TransGen (dependsOn w) d d := Relation.TransGen.tail' hdv hvd
      rw [addPackage_succ]
      have hf := hfetch v hv
      unfold fetchSucceeds at hf
      rw [hf]
      simp only []
      apply addPackage.fetchDependencies_none
      · intro x hx
        exact addPackage_no_error w force ref hfetch n x
          (hv.tail ((mem_rangeOrder_iff w v x).1 hx))
      · exact ⟨d, (mem_rangeOrder_iff w v d).2 hvd, ih d hd hdd⟩
  intro fuel
  exact key fuel ref Relation.ReflTransGen.refl hcycle

/-- C10 on a repository whose resource declares the repository itself. -/
theorem C10_cycle_never_returns_witness :
    Relation.TransGen (dependsOn cycleWorld) loopURI loopURI ∧
      (∀ v, Relation.ReflTransGen (dependsOn cycleWorld) loopURI v →
        fetchSucceeds cycleWorld false v) ∧
      ∀ fuel : Nat, addPackage cycleWorld fuel loopURI false = none :=
  have hcycle : Relation.TransGen (dependsOn cycleWorld) loopURI loopURI :=
    Relation.TransGen.single
      ⟨⟨"self".data, "resources/[loop]/self".data,
          ⟨[("dependency_url".data, ["https://example.test/loop.git".data])]⟩⟩,
        by decide, by decide⟩
  have hfetch : ∀ v, Relation.ReflTransGen (dependsOn cycleWorld) loopURI v →
      fetchSucceeds cycleWorld false v := fun _ _ => rfl
  ⟨hcycle, hfetch, C10_cycle_never_returns cycleWorld false loopURI hcycle hfetch⟩

/-! ## Dependency-first order -/

theorem forall₂_mem_left {α β : Type} {R : α → β → Prop} {l1 : List α} {l2 : List β}
    (h : List.Forall₂ R l1 l2) : ∀ a ∈ l1, ∃ b ∈ l2, R a b := by
  induction h with
  | nil => intro a ha; simp at ha
  | cons hab _ ih =>
    intro a ha
    rcases List.mem_cons.1 ha with e | e
    · subst e
      exact ⟨_, by simp, hab⟩
    · obtain ⟨b, hb, hr⟩ := ih a e
      exact ⟨b, List.mem_cons_of_mem _ hb, hr⟩

theorem forall₂_mem_right {α β : Type} {R : α → β → Prop} {l1 : List α} {l2 : List β}
    (h : List.Forall₂ R l1 l2) : ∀ b ∈ l2, ∃ a ∈ l1, R a b := by
  induction h with
  | nil => intro b hb; simp at hb
  | cons hab _ ih =>
    intro b hb
    rcases List.mem_cons.1 hb with e | e
    · subst e
      exact ⟨_, by simp, hab⟩
    · obtain ⟨a, ha, hr⟩ := ih b e
      exact ⟨a, List.mem_cons_of_mem _ ha, hr⟩

/-- A position in a concatenation of lists lies in one of the lists. -/
theorem flatten_eq_append_cons {α : Type} (L : List (List α)) :
    ∀ (pre : List α) (x : α) (post : List α), L.flatten = pre ++ x :: post →
      ∃ (L1 : List (List α)) (l : List α) (L2 : List (List α)) (p1 p2 : List α),
        L = L1 ++ l :: L2 ∧ l = p1 ++ x :: p2 ∧ pre = L1.flatten ++ p1 := by
  induction L with
  | nil => intro pre x post h; simp at h
  | cons l rest ih =>
    intro pre x post h
    rw [List.flatten_cons, List.append_eq_append_iff] at h
    rcases h with ⟨a', hpre, hrest⟩ | ⟨c', hl, hpost⟩
    · obtain ⟨L1, l2, L2, p1, p2, hL, hl2, hp⟩ := ih a' x post hrest
      refine ⟨l :: L1, l2, L2, p1, p2, ?_, hl2, ?_⟩
      · simp [hL]
      · simp [hpre, hp, List.append_assoc]
    · cases c' with
      | nil =>
        simp only [List.nil_append] at hpost
        obtain ⟨L1, l2, L2, p1, p2, hL, hl2, hp⟩ := ih [] x post hpost.symm
        refine ⟨l :: L1, l2, L2, p1, p2, ?_, hl2, ?_⟩
        · simp [hL]
        · simp only [List.append_nil] at hl
          rw [List.flatten_cons, List.append_assoc, ← hp, ← hl]
          simp
      | cons c cs =>
        simp only [List.cons_append, List.cons.injEq] at hpost
        obtain ⟨hx, _⟩ := hpost
        subst hx
        exact ⟨[], l, rest, pre, cs, by simp, hl, by simp⟩

/-- The resources of a repository are in the list its resolution returns. -/
theorem addPackage_own_subset (w : World) (fuel : Nat) (ref : GoString) (force : Bool)
    (t : List Event) (l : List Resource) (h : addPackage w fuel ref force = some (t, .ok l)) :
    ∀ r ∈ ownResources w ref, r ∈ l := by
  cases fuel with
  | zero => simp [addPackage] at h
  | succ n =>
    obtain ⟨_, subs, _, _, hres⟩ := addPackage_ok w n ref force t l h
    intro r hr
    rw [hres]
    exact List.mem_append_right _ hr

/-- C3, as the code has it: in the list `addPackage` returns for a top-level
reference, when reference `a` depends on reference `b`, every occurrence of a
resource of the repository of `a` has before it an occurrence of each resource
of the repository of `b` (resources of different repositories being different).
Resources of `b` may occur again after it. -/
theorem C3_dependency_occurs_before (w : World) (force : Bool) (fuel : Nat) (top : GoString)
    (tr : List Event) (result : List Resource)
    (hdisjoint : ∀ (u v : GoString) (r : Resource), r ∈ ownResources w u →
      r ∈ ownResources w v → addPackage.outRoot w u = addPackage.outRoot w v)
    (h : addPackage w fuel top force = some (tr, .ok result))
    (a b : GoString) (hdep : dependsOn w a b)
    (pre : List Resource) (ra : Resource) (post : List Resource)
    (hpos : result = pre ++ ra :: post) (hra : ra ∈ ownResources w a) :
    ∀ rb ∈ ownResources w b, rb ∈ pre := by
  induction fuel generalizing top tr result pre ra post with
  | zero => simp [addPackage] at h
  | succ n ih =>
    obtain ⟨_, subs, hsubs, _, hres⟩ := addPackage_ok w n top force tr result h
    intro rb hrb
    -- an occurrence among the own resources: the dependency has been resolved before
    have hownCase : ra ∈ ownResources w top →
        rb ∈ (subs.map (fun s => s.2)).reverse.flatten := by
      intro hratop
      have hroot := hdisjoint a top ra hra hratop
      have hsame : ownResources w a = ownResources w top := by
        unfold ownResources
        rw [hroot]
      have hdeptop : dependsOn w top b := by
        unfold dependsOn at hdep ⊢
        rw [← hsame]
        exact hdep
      obtain ⟨s, hs, hsb⟩ := forall₂_mem_left hsubs b ((mem_rangeOrder_iff w top b).2 hdeptop)
      have hin := addPackage_own_subset w n b force s.1 s.2 hsb rb hrb
      apply List.mem_flatten.2
      exact ⟨s.2, by simp only [List.mem_reverse, List.mem_map]; exact ⟨s, hs, rfl⟩, hin⟩
    rw [hpos, List.append_eq_append_iff] at hres
    rcases hres with ⟨a', hD, hown⟩ | ⟨c', hpre, hrest⟩
    · cases a' with
      | nil =>
        simp only [List.append_nil] at hD
        simp only [List.nil_append] at hown
        rw [← hD]
        exact hownCase (by rw [← hown]; simp)
      | cons x xs =>
        -- the occurrence lies in the list returned for a dependency
        rw [List.cons_append, List.cons.injEq] at hown
        obtain ⟨hx, _⟩ := hown
        subst hx
        obtain ⟨L1, l, L2, p1, p2, hL, hl, hp⟩ := flatten_eq_append_cons _ pre ra xs hD
        have hlmem : l ∈ (subs.map (fun s => s.2)).reverse := by rw [hL]; simp
        simp only [List.mem_reverse, List.mem_map] at hlmem
        obtain ⟨s, hs, hsl⟩ := hlmem
        obtain ⟨d, _, hd⟩ := forall₂_mem_right hsubs s hs
        rw [hsl] at hd
        have := ih d s.1 l hd p1 ra p2 hl hra rb hrb
        rw [hp]
        exact List.mem_append_right _ this
    · rw [hpre]
      exact List.mem_append_left _ (hownCase (by rw [hrest]; simp))

theorem diamondWorld.mem_gatherResources (root : GoString) (r : Resource)
    (h : r ∈ gatherResources diamondWorld root) :
    (root = "resources/[top]".data ∧ r = mainResource) ∨
    (root = "resources/[addon]".data ∧ r = extraResource) ∨
    (root = "resources/[core]".data ∧ r = baseResource) := by
  by_cases h1 : root = "resources/[top]".data
  · subst h1
    have e : gatherResources diamondWorld "resources/[top]".data = [mainResource] := rfl
    rw [e, List.mem_singleton] at h
    exact Or.inl ⟨rfl, h⟩
  · by_cases h2 : root = "resources/[addon]".data
    · subst h2
      have e : gatherResources diamondWorld "resources/[addon]".data = [extraResource] := rfl
      rw [e, List.mem_singleton] at h
      exact Or.inr (Or.inl ⟨rfl, h⟩)
    · by_cases h3 : root = "resources/[core]".data
      · subst h3
        have e : gatherResources diamondWorld "resources/[core]".data = [baseResource] := rfl
        rw [e, List.mem_singleton] at h
        exact Or.inr (Or.inr ⟨rfl, h⟩)
      · have e : gatherResources diamondWorld root = [] := by
          have hw : diamondWorld.walk root = [] := by
            simp [diamondWorld, h1, h2, h3]
          unfold gatherResources
          rw [hw]
          rfl
        rw [e] at h
        simp at h

/-- In `diamondWorld` the resources of different repositories are different. -/
theorem diamondWorld.disjoint (u v : GoString) (r : Resource)
    (hu : r ∈ ownResources diamondWorld u) (hv : r ∈ ownResources diamondWorld v) :
    addPackage.outRoot diamondWorld u = addPackage.outRoot diamondWorld v := by
  have h12 : mainResource ≠ extraResource := by decide
  have h13 : mainResource ≠ baseResource := by decide
  have h23 : extraResource ≠ baseResource := by decide
  rcases diamondWorld.mem_gatherResources _ r hu with ⟨eu, ru⟩ | ⟨eu, ru⟩ | ⟨eu, ru⟩ <;>
    rcases diamondWorld.mem_gatherResources _ r hv with ⟨ev, rv⟩ | ⟨ev, rv⟩ | ⟨ev, rv⟩
  · rw [eu, ev]
  · exact absurd (ru.symm.trans rv) h12
  · exact absurd (ru.symm.trans rv) h13
  · exact absurd (rv.symm.trans ru) h12
  · rw [eu, ev]
  · exact absurd (ru.symm.trans rv) h23
  · exact absurd (rv.symm.trans ru) h13
  · exact absurd (rv.symm.trans ru) h23
  · rw [eu, ev]

/-- In `diamondWorld` a dependency is lower than its dependent. -/
theorem diamondWorld.height_lt (u v : GoString) (h : dependsOn diamondWorld u v) :
    diamondWorld.height v < diamondWorld.height u := by
  obtain ⟨r, hr, hv⟩ := h
  rcases diamondWorld.mem_gatherResources _ r hr with ⟨eu, ru⟩ | ⟨eu, ru⟩ | ⟨eu, ru⟩
  · subst ru
    have hu : diamondWorld.height u = 2 := by simp [diamondWorld.height, eu]
    have hv2 : v = coreURI ∨ v = addonURI := by
      have e : mainResource.Manifest.GetAll "dependency_url".data = [coreURI, addonURI] := rfl
      rw [e] at hv
      simpa using hv
    rw [hu]
    rcases hv2 with e | e <;> subst e <;> decide
  · subst ru
    have hne : ¬ addPackage.outRoot diamondWorld u = "resources/[top]".data := by
      rw [eu]; decide
    have hu : diamondWorld.height u = 1 := by simp [diamondWorld.height, eu, hne]
    have hv2 : v = coreURI := by
      have e : extraResource.Manifest.GetAll "dependency_url".data = [coreURI] := rfl
      rw [e] at hv
      simpa using hv
    rw [hu, hv2]
    decide
  · subst ru
    have e : baseResource.Manifest.GetAll "dependency_url".data = [] := rfl
    rw [e] at hv
    simp at hv

/-- The dependency graph of `diamondWorld` has no cycle. -/
theorem diamondWorld.acyclic (v : GoString) :
    ¬ Relation.TransGen (dependsOn diamondWorld) v v := by
  have key : ∀ a b : GoString, Relation.TransGen (dependsOn diamondWorld) a b →
      diamondWorld.height b < diamondWorld.height a := by
    intro a b h
    induction h with
    | single h1 => exact diamondWorld.height_lt _ _ h1
    | tail _ h2 ih => exact lt_trans (diamondWorld.height_lt _ _ h2) ih
  intro h
  exact lt_irrefl _ (key v v h)

/-- C3 on `diamondWorld`: in the list resolved for `top`, the resource `extra`
of `addon` has the resource `base` of `core` before it. -/
theorem C3_dependency_occurs_before_witness :
    (∀ (u v : GoString) (r : Resource), r ∈ ownResources diamondWorld u →
        r ∈ ownResources diamondWorld v →
        addPackage.outRoot diamondWorld u = addPackage.outRoot diamondWorld v) ∧
      dependsOn diamondWorld addonURI coreURI ∧
      extraResource ∈ ownResources diamondWorld addonURI ∧
      ∀ rb ∈ ownResources diamondWorld coreURI, rb ∈ [baseResource] :=
  have hdep : dependsOn diamondWorld addonURI coreURI :=
    ⟨extraResource, by decide, by decide⟩
  ⟨diamondWorld.disjoint, hdep, by decide,
    C3_dependency_occurs_before diamondWorld false 3 topURI
      ((addPackage diamondWorld 3 topURI false).elim [] (fun r => r.1))
      [baseResource, extraResource, baseResource, mainResource]
      diamondWorld.disjoint rfl addonURI coreURI hdep
      [baseResource] extraResource [baseResource, mainResource] rfl (by decide)⟩

/-- C3 fails on `diamondWorld`, whose dependency graph is finite and has no
cycle: `addon` depends on `core`, and the list resolved for `top` is `base`,
`extra`, `base`, `main`, where the second `base` of `core` stands after the
`extra` of `addon`. -/
theorem C3_counterexample_diamond :
    (∀ v : GoString, ¬ Relation.TransGen (dependsOn diamondWorld) v v) ∧
      dependsOn diamondWorld addonURI coreURI ∧
      (addPackage diamondWorld 3 topURI false).map (fun r => r.2) =
        some (.ok [baseResource, extraResource, baseResource, mainResource]) ∧
      ownResources diamondWorld coreURI = [baseResource] ∧
      ownResources diamondWorld addonURI = [extraResource] ∧
      ¬ dependencyFirst diamondWorld
        [baseResource, extraResource, baseResource, mainResource] addonURI coreURI :=
  ⟨diamondWorld.acyclic, ⟨extraResource, by decide, by decide⟩, rfl, rfl, rfl, by decide⟩
